import Mathlib

/-!
# SHA-3 sponge of `hardware/action_examples/hls_sponge/sha3.cpp`

A shallow embedding of the Keccak-f[1600] permutation, the byte/word casting
helpers and the sponge operations (`sha3_init`, `sha3_update`, `sha3_final`,
`sha3`, `shake_xof`, `shake_out`) together with theorems about them.

Conventions of the embedding.

* A `uint8_t` array is a `List Nat` of bytes, a `uint64_t` array a `List Nat`
  of words.  Every store to a `uint8_t` is reduced modulo `2^8`, every value
  computed in `uint64_t` that can leave the 64-bit range is reduced modulo
  `2^64`.
* The `int` fields `pt`, `rsiz`, `mdlen` are integers; `int` is 32 bits wide
  (`is_int`).  The value `sha3_init` computes from its argument is reduced to
  that range (`wrap_int`); the cursor arithmetic is stated under hypotheses
  that keep it in range.
* A read through a byte pointer is `rdByte`; a read-modify-write
  `p[j] ^= v` is `xorByte`.
-/

namespace Sha3

/-! ## Items of the header `sha3.H` -/

/-- Modelled from the spec: the header `sha3.H` is not part of the sources; the
permutation has 24 rounds (`KECCAKF_ROUNDS`). -/
def KECCAKF_ROUNDS : Nat := 24

/-- Modelled from the spec: the header macro `ROTL64(x, y)`, the 64-bit
circular left shift `(x << y) | (x >> (64 - y))` on `uint64_t`. -/
def ROTL64 (x y : Nat) : Nat :=
  ((x <<< y) % 2 ^ 64) ||| (x >>> (64 - y))

/-- Modelled from the spec: the context `sha3_ctx_t` of the header `sha3.H`:
the 200 state bytes `st.b` and the `int` fields `pt`, `rsiz`, `mdlen`. -/
structure sha3_ctx_t where
  b : List Nat
  pt : Int
  rsiz : Int
  mdlen : Int
deriving DecidableEq

/-! ## Machine integers -/

/-- The values of the 32-bit type `int`. -/
def is_int (x : Int) : Prop := -2147483648 ≤ x ∧ x ≤ 2147483647

/-- The `int` result of an operation whose mathematical result is `x`: `x`
itself when it is a value of `int`, and otherwise `x` reduced modulo `2^32`
into the range of `int` (two's complement). -/
def wrap_int (x : Int) : Int := (x + 2147483648) % 4294967296 - 2147483648

/-! ## Memory access helpers -/

/-- Read of `p[i]` through a byte (or word) pointer `p` whose array is `a`.
Exact for an index inside the array.  An index outside the array yields `0`
here; in C such a read is outside the array, so a statement about the bytes
read keeps the index inside the array by hypothesis. -/
def rdByte (a : List Nat) (i : Int) : Nat :=
  if 0 ≤ i then a.getD i.toNat 0 else 0

/-- The statement `p[i] ^= v` on a `uint8_t` array.  Exact for an index inside
the array.  An index outside the array leaves the array as it is here; in C
such a store is outside the array, so a statement about the state after a
store keeps the index inside the array by hypothesis. -/
def xorByte (a : List Nat) (i : Int) (v : Nat) : List Nat :=
  if 0 ≤ i then a.set i.toNat ((a.getD i.toNat 0 ^^^ v) % 256) else a

/-- The statement `p[i] ^= v` on a `uint64_t` array.  An index outside the
array leaves the array as it is. -/
def xorWord (a : List Nat) (i : Nat) (v : Nat) : List Nat :=
  a.set i ((a.getD i 0 ^^^ v) % 2 ^ 64)

/-! ## Casting helpers -/

/-- Inner loop of `cast_uint8_to_uint64_W25`: `for (j = 8; j >= 0; j--)`,
nine iterations, each shifting `mem` left by one byte in 64 bits and
or-ing in `st_in[j + i*8]`. -/
def cast_8to64_word (st_in : Nat → Nat) (i : Nat) : Nat :=
  [8, 7, 6, 5, 4, 3, 2, 1, 0].foldl
    (fun mem j => (((mem <<< 8) % 2 ^ 64) &&& 0xFFFFFFFFFFFFFF00) ||| st_in (j + i * 8)) 0

/-- The function `cast_uint8_to_uint64_W25(st_in, st_out, size)`; the result
is `st_out[0 .. size-1]`.  `st_in` is the byte seen at each index through
the pointer. -/
def cast_uint8_to_uint64_W25 (st_in : Nat → Nat) (size : Nat) : List Nat :=
  (List.range size).map (cast_8to64_word st_in)

/-- Inner loop of `cast_uint64_to_uint8_W25`: the eight bytes written to
`st_out[i*8 .. i*8+7]` from `tmp = st_in[i]`. -/
def cast_64to8_word (tmp : Nat) : List Nat :=
  [0, 1, 2, 3, 4, 5, 6, 7].map (fun j => (tmp >>> (8 * j)) % 256)

/-- The function `cast_uint64_to_uint8_W25(st_in, st_out, size)`; the result
is `st_out[0 .. 8*size-1]`, every byte of which the function writes. -/
def cast_uint64_to_uint8_W25 (st_in : List Nat) (size : Nat) : List Nat :=
  (List.range size).flatMap (fun i => cast_64to8_word (st_in.getD i 0))

/-! ## The permutation -/

def keccakf_rndc : List Nat :=
  [0x0000000000000001, 0x0000000000008082, 0x800000000000808a,
   0x8000000080008000, 0x000000000000808b, 0x0000000080000001,
   0x8000000080008081, 0x8000000000008009, 0x000000000000008a,
   0x0000000000000088, 0x0000000080008009, 0x000000008000000a,
   0x000000008000808b, 0x800000000000008b, 0x8000000000008089,
   0x8000000000008003, 0x8000000000008002, 0x8000000000000080,
   0x000000000000800a, 0x800000008000000a, 0x8000000080008081,
   0x8000000000008080, 0x0000000080000001, 0x8000000080008008]

def keccakf_rotc : List Nat :=
  [1,  3,  6,  10, 15, 21, 28, 36, 45, 55, 2,  14,
   27, 41, 56, 8,  25, 43, 62, 18, 39, 61, 20, 44]

def keccakf_piln : List Nat :=
  [10, 7,  11, 17, 18, 3, 5,  16, 8,  21, 24, 4,
   15, 23, 19, 13, 12, 2, 20, 14, 22, 9,  6,  1]

/-- Bitwise complement `~x` of a `uint64_t`. -/
def not64 (x : Nat) : Nat := 0xFFFFFFFFFFFFFFFF ^^^ x

/-- Theta, first loop: the five column parities `bc[0..4]`. -/
def theta_bc (st : List Nat) : List Nat :=
  (List.range 5).map (fun i =>
    st.getD i 0 ^^^ st.getD (i + 5) 0 ^^^ st.getD (i + 10) 0 ^^^ st.getD (i + 15) 0
      ^^^ st.getD (i + 20) 0)

/-- Theta, second loop: for each column `i`, `t` is xor-ed into
`st[j + i]` for `j = 0, 5, 10, 15, 20`. -/
def theta (st : List Nat) : List Nat :=
  let bc := theta_bc st
  (List.range 5).foldl (fun st i =>
    let t := bc.getD ((i + 4) % 5) 0 ^^^ ROTL64 (bc.getD ((i + 1) % 5) 0) 1
    [0, 5, 10, 15, 20].foldl (fun st j => xorWord st (j + i) t) st) st

/-- Rho Pi: `t = st[1]`, then for `i = 0..23` the word `st[piln[i]]` is
replaced by `ROTL64(t, rotc[i])` and `t` takes its previous value. -/
def rho_pi (st : List Nat) : List Nat :=
  ((List.range 24).foldl (fun (p : List Nat × Nat) i =>
    let j := keccakf_piln.getD i 0
    let bc0 := p.1.getD j 0
    (p.1.set j (ROTL64 p.2 (keccakf_rotc.getD i 0)), bc0)) (st, st.getD 1 0)).1

/-- Chi: for each row `j = 0, 5, .., 20` a snapshot `bc` of the row, then
`st[j + i] ^= (~bc[(i+1) % 5]) & bc[(i+2) % 5]`. -/
def chi (st : List Nat) : List Nat :=
  [0, 5, 10, 15, 20].foldl (fun st j =>
    let bc := (List.range 5).map (fun i => st.getD (j + i) 0)
    (List.range 5).foldl (fun st i =>
      xorWord st (j + i) (not64 (bc.getD ((i + 1) % 5) 0) &&& bc.getD ((i + 2) % 5) 0)) st) st

/-- Iota: `st[0] ^= keccakf_rndc[r]`. -/
def iota (st : List Nat) (r : Nat) : List Nat :=
  xorWord st 0 (keccakf_rndc.getD r 0)

/-- One iteration of the round loop of `sha3_keccakf`. -/
def keccakf_round (st : List Nat) (r : Nat) : List Nat :=
  iota (chi (rho_pi (theta st))) r

/-- The function `sha3_keccakf(st_in, st_out)` on a little-endian target: copy
of the 25 input words, `KECCAKF_ROUNDS` rounds, copy to the 25 output
words. -/
def sha3_keccakf (st_in : List Nat) : List Nat :=
  let st := (List.range 25).map (fun i => st_in.getD i 0)
  let st := (List.range KECCAKF_ROUNDS).foldl keccakf_round st
  (List.range 25).map (fun i => st.getD i 0)

/-- The three statements `cast_uint8_to_uint64_W25(c->st.b, st, 25);
sha3_keccakf(st, st); cast_uint64_to_uint8_W25(st, c->st.b, 25);` that the
sponge functions use to permute the state bytes.  The first cast reads
`c->st.b[8 + 8*i]` for each word, for the last word the index 200, one past
the array; the read yields `0` here (see `rdByte`). -/
def keccakf_bytes (b : List Nat) : List Nat :=
  cast_uint64_to_uint8_W25 (sha3_keccakf (cast_uint8_to_uint64_W25 (fun i => b.getD i 0) 25)) 25

/-! ## The sponge -/

/-- The function `sha3_init(c, mdlen)`: return value and context.  The rate
`200 - 2 * mdlen` is computed in `int`: the product and the difference are
each an `int` result. -/
def sha3_init (_c : sha3_ctx_t) (mdlen : Int) : Int × sha3_ctx_t :=
  (1, { b := List.replicate 200 0, mdlen := mdlen,
        rsiz := wrap_int (200 - wrap_int (2 * mdlen)), pt := 0 })

/-- Loop of `sha3_update` over the remaining input bytes, on the state bytes
and the local cursor `j`. -/
def sha3_update_loop (rsiz : Int) : List Nat → List Nat → Int → List Nat × Int
  | [], b, j => (b, j)
  | d :: ds, b, j =>
    let b1 := xorByte b j d
    let j1 := j + 1
    if j1 ≥ rsiz then sha3_update_loop rsiz ds (keccakf_bytes b1) 0
    else sha3_update_loop rsiz ds b1 j1

/-- The function `sha3_update(c, data, len)` with `len` the length of `data`:
return value and context. -/
def sha3_update (c : sha3_ctx_t) (data : List Nat) : Int × sha3_ctx_t :=
  let r := sha3_update_loop c.rsiz data c.b c.pt
  (1, { c with b := r.1, pt := r.2 })

/-- The function `sha3_final(md, c)`: return value, the bytes written to
`md[0 .. mdlen-1]`, and the context. -/
def sha3_final (c : sha3_ctx_t) : Int × List Nat × sha3_ctx_t :=
  let b := xorByte c.b c.pt 0x06
  let b := xorByte b (c.rsiz - 1) 0x80
  let b := keccakf_bytes b
  (1, (List.range c.mdlen.toNat).map (fun (i : Nat) => rdByte b (i : Int)), { c with b := b })

/-- The function `sha3(in, inlen, md, mdlen)` with `inlen` the length of
`in`: the bytes written to `md`. -/
def sha3 (inp : List Nat) (mdlen : Int) : List Nat :=
  let c := (sha3_init ⟨[], 0, 0, 0⟩ mdlen).2
  let c := (sha3_update c inp).2
  (sha3_final c).2.1

/-- The function `shake_xof(c)`. -/
def shake_xof (c : sha3_ctx_t) : sha3_ctx_t :=
  let b := xorByte c.b c.pt 0x1F
  let b := xorByte b (c.rsiz - 1) 0x80
  { c with b := keccakf_bytes b, pt := 0 }

/-- Loop of `shake_out` for the remaining `len - i` output bytes, on the
state bytes and the local cursor `j`: the bytes written, the state bytes and
the cursor. -/
def shake_out_loop (rsiz : Int) : Nat → List Nat → Int → List Nat × List Nat × Int
  | 0, b, j => ([], b, j)
  | n + 1, b, j =>
    let b1 := if j ≥ rsiz then keccakf_bytes b else b
    let j1 := if j ≥ rsiz then 0 else j
    let r := shake_out_loop rsiz n b1 (j1 + 1)
    (rdByte b1 j1 :: r.1, r.2)

/-- The function `shake_out(c, out, len)`: the bytes written to
`out[0 .. len-1]` and the context. -/
def shake_out (c : sha3_ctx_t) (len : Nat) : List Nat × sha3_ctx_t :=
  let r := shake_out_loop c.rsiz len c.b c.pt
  (r.1, { c with b := r.2.1, pt := r.2.2 })

/-! ## Reference sponge (FIPS 202), for comparison with `sha3` -/


/-- The padded message `pad(m)` for rate `r`: `m`, the byte `0x06`, zero
bytes, and a final byte `0x80`; a single byte `0x86` when
`len(m) mod r = r - 1`. -/
def spec_pad (r : Nat) (m : List Nat) : List Nat :=
  if m.length % r = r - 1 then m ++ [0x86]
  else m ++ [0x06] ++ List.replicate (r - 2 - m.length % r) 0 ++ [0x80]

/-- The block `B_(i+1)`: the `r` bytes of `p` from offset `i * r`. -/
def spec_block (r : Nat) (p : List Nat) (i : Nat) : List Nat :=
  (p.drop (i * r)).take r

/-- The states `S_i`: `S_0` is the all-zero 200-byte state and
`S_i = P(S_(i-1) XOR (B_i followed by 200 - r zero bytes))`, with `P` the
byte-level permutation `keccakf_bytes`. -/
def spec_S (r : Nat) (p : List Nat) : Nat → List Nat
  | 0 => List.replicate 200 0
  | i + 1 =>
    keccakf_bytes
      (List.zipWith (fun x y => x ^^^ y) (spec_S r p i) (spec_block r p i ++ List.replicate (200 - r) 0))

/-- The reference digest: the first `mdlen` bytes of `S_n`, `n` the number
of `r`-byte blocks of `pad(m)`, `r = 200 - 2 * mdlen`. -/
def spec_sha3 (m : List Nat) (mdlen : Nat) : List Nat :=
  let r := 200 - 2 * mdlen
  let p := spec_pad r m
  (spec_S r p (p.length / r)).take mdlen

/-! ## Auxiliary definitions of the proofs -/

/-- Bytes xor-ed one after the other into `b` from index `j` on (the stores of
the absorbing loop without the permutation). -/
def xorInto : List Nat → Nat → List Nat → List Nat
  | b, _, [] => b
  | b, j, d :: ds => xorInto (b.set j ((b.getD j 0 ^^^ d) % 256)) (j + 1) ds

/-- The padding suffix of `spec_pad` after a message whose length is `k` modulo `r`. -/
def spec_sfx (r k : Nat) : List Nat :=
  if k = r - 1 then [0x86] else [0x06] ++ List.replicate (r - 2 - k) 0 ++ [0x80]

/-! ## Evaluation forms

Lane-wise and chunk-wise forms of the permutation and of the byte-to-word
cast.  They are proved equal to the embedding above and serve to evaluate it
on concrete inputs. -/

/-- Theta on a state of 25 words, lane by lane (evaluation form of `theta`). -/
def theta_lanes : List Nat → List Nat
  | [a0, a1, a2, a3, a4, a5, a6, a7, a8, a9, a10, a11, a12, a13, a14, a15, a16, a17, a18, a19, a20, a21, a22, a23, a24] =>
    let bc0 := a0 ^^^ a5 ^^^ a10 ^^^ a15 ^^^ a20
    let bc1 := a1 ^^^ a6 ^^^ a11 ^^^ a16 ^^^ a21
    let bc2 := a2 ^^^ a7 ^^^ a12 ^^^ a17 ^^^ a22
    let bc3 := a3 ^^^ a8 ^^^ a13 ^^^ a18 ^^^ a23
    let bc4 := a4 ^^^ a9 ^^^ a14 ^^^ a19 ^^^ a24
    let t0 := bc4 ^^^ ROTL64 bc1 1
    let t1 := bc0 ^^^ ROTL64 bc2 1
    let t2 := bc1 ^^^ ROTL64 bc3 1
    let t3 := bc2 ^^^ ROTL64 bc4 1
    let t4 := bc3 ^^^ ROTL64 bc0 1
    [(a0 ^^^ t0) % 2 ^ 64,
     (a1 ^^^ t1) % 2 ^ 64,
     (a2 ^^^ t2) % 2 ^ 64,
     (a3 ^^^ t3) % 2 ^ 64,
     (a4 ^^^ t4) % 2 ^ 64,
     (a5 ^^^ t0) % 2 ^ 64,
     (a6 ^^^ t1) % 2 ^ 64,
     (a7 ^^^ t2) % 2 ^ 64,
     (a8 ^^^ t3) % 2 ^ 64,
     (a9 ^^^ t4) % 2 ^ 64,
     (a10 ^^^ t0) % 2 ^ 64,
     (a11 ^^^ t1) % 2 ^ 64,
     (a12 ^^^ t2) % 2 ^ 64,
     (a13 ^^^ t3) % 2 ^ 64,
     (a14 ^^^ t4) % 2 ^ 64,
     (a15 ^^^ t0) % 2 ^ 64,
     (a16 ^^^ t1) % 2 ^ 64,
     (a17 ^^^ t2) % 2 ^ 64,
     (a18 ^^^ t3) % 2 ^ 64,
     (a19 ^^^ t4) % 2 ^ 64,
     (a20 ^^^ t0) % 2 ^ 64,
     (a21 ^^^ t1) % 2 ^ 64,
     (a22 ^^^ t2) % 2 ^ 64,
     (a23 ^^^ t3) % 2 ^ 64,
     (a24 ^^^ t4) % 2 ^ 64]
  | st => theta st

/-- Rho Pi on a state of 25 words, lane by lane (evaluation form of `rho_pi`). -/
def rho_pi_lanes : List Nat → List Nat
  | [a0, a1, a2, a3, a4, a5, a6, a7, a8, a9, a10, a11, a12, a13, a14, a15, a16, a17, a18, a19, a20, a21, a22, a23, a24] =>
    [a0,
     ROTL64 a6 44,
     ROTL64 a12 43,
     ROTL64 a18 21,
     ROTL64 a24 14,
     ROTL64 a3 28,
     ROTL64 a9 20,
     ROTL64 a10 3,
     ROTL64 a16 45,
     ROTL64 a22 61,
     ROTL64 a1 1,
     ROTL64 a7 6,
     ROTL64 a13 25,
     ROTL64 a19 8,
     ROTL64 a20 18,
     ROTL64 a4 27,
     ROTL64 a5 36,
     ROTL64 a11 10,
     ROTL64 a17 15,
     ROTL64 a23 56,
     ROTL64 a2 62,
     ROTL64 a8 55,
     ROTL64 a14 39,
     ROTL64 a15 41,
     ROTL64 a21 2]
  | st => rho_pi st

/-- Chi on a state of 25 words, lane by lane (evaluation form of `chi`). -/
def chi_lanes : List Nat → List Nat
  | [a0, a1, a2, a3, a4, a5, a6, a7, a8, a9, a10, a11, a12, a13, a14, a15, a16, a17, a18, a19, a20, a21, a22, a23, a24] =>
    [(a0 ^^^ (not64 a1 &&& a2)) % 2 ^ 64,
     (a1 ^^^ (not64 a2 &&& a3)) % 2 ^ 64,
     (a2 ^^^ (not64 a3 &&& a4)) % 2 ^ 64,
     (a3 ^^^ (not64 a4 &&& a0)) % 2 ^ 64,
     (a4 ^^^ (not64 a0 &&& a1)) % 2 ^ 64,
     (a5 ^^^ (not64 a6 &&& a7)) % 2 ^ 64,
     (a6 ^^^ (not64 a7 &&& a8)) % 2 ^ 64,
     (a7 ^^^ (not64 a8 &&& a9)) % 2 ^ 64,
     (a8 ^^^ (not64 a9 &&& a5)) % 2 ^ 64,
     (a9 ^^^ (not64 a5 &&& a6)) % 2 ^ 64,
     (a10 ^^^ (not64 a11 &&& a12)) % 2 ^ 64,
     (a11 ^^^ (not64 a12 &&& a13)) % 2 ^ 64,
     (a12 ^^^ (not64 a13 &&& a14)) % 2 ^ 64,
     (a13 ^^^ (not64 a14 &&& a10)) % 2 ^ 64,
     (a14 ^^^ (not64 a10 &&& a11)) % 2 ^ 64,
     (a15 ^^^ (not64 a16 &&& a17)) % 2 ^ 64,
     (a16 ^^^ (not64 a17 &&& a18)) % 2 ^ 64,
     (a17 ^^^ (not64 a18 &&& a19)) % 2 ^ 64,
     (a18 ^^^ (not64 a19 &&& a15)) % 2 ^ 64,
     (a19 ^^^ (not64 a15 &&& a16)) % 2 ^ 64,
     (a20 ^^^ (not64 a21 &&& a22)) % 2 ^ 64,
     (a21 ^^^ (not64 a22 &&& a23)) % 2 ^ 64,
     (a22 ^^^ (not64 a23 &&& a24)) % 2 ^ 64,
     (a23 ^^^ (not64 a24 &&& a20)) % 2 ^ 64,
     (a24 ^^^ (not64 a20 &&& a21)) % 2 ^ 64]
  | st => chi st

/-- One round, lane by lane (evaluation form of `keccakf_round`). -/
def keccakf_round_lanes (st : List Nat) (r : Nat) : List Nat :=
  iota (chi_lanes (rho_pi_lanes (theta_lanes st))) r

/-- The permutation with lane-wise rounds (evaluation form of `sha3_keccakf`). -/
def sha3_keccakf_lanes (st_in : List Nat) : List Nat :=
  let st := (List.range 25).map (fun i => st_in.getD i 0)
  let st := (List.range KECCAKF_ROUNDS).foldl keccakf_round_lanes st
  (List.range 25).map (fun i => st.getD i 0)

/-- Little-endian packing of the bytes of a list, eight at a time (evaluation
form of `cast_uint8_to_uint64_W25` on a byte array). -/
def cast_8to64_chunks : List Nat → List Nat
  | b0 :: b1 :: b2 :: b3 :: b4 :: b5 :: b6 :: b7 :: rest =>
    (b0 + 2 ^ 8 * b1 + 2 ^ 16 * b2 + 2 ^ 24 * b3 + 2 ^ 32 * b4 + 2 ^ 40 * b5 + 2 ^ 48 * b6
      + 2 ^ 56 * b7) :: cast_8to64_chunks rest
  | _ => []

/-- The byte-level permutation on a well-formed state of 200 bytes, computed
through `cast_8to64_chunks` and `sha3_keccakf_lanes` (evaluation form of
`keccakf_bytes`). -/
def keccakf_bytes_eval (b : List Nat) : List Nat :=
  if b.length = 200 ∧ ∀ x ∈ b, x < 256 then
    cast_uint64_to_uint8_W25 (sha3_keccakf_lanes (cast_8to64_chunks b)) 25
  else keccakf_bytes b

/-! ## Traces, operation sequences and reference forms

The trace functions repeat a loop of the source and record, next to its
result, the array indices it touches or the number of permutations it
applies.  Each is proved to return the result of the function it repeats. -/

/-- Inner loop of `cast_uint8_to_uint64_W25` for word `i` with the list of the
indices `j + i*8` at which it reads `st_in`, in the order `j = 8, 7, .., 0`. -/
def cast_8to64_word_trace (st_in : Nat → Nat) (i : Nat) : Nat × List Nat :=
  [8, 7, 6, 5, 4, 3, 2, 1, 0].foldl
    (fun (p : Nat × List Nat) j =>
      ((((p.1 <<< 8) % 2 ^ 64) &&& 0xFFFFFFFFFFFFFF00) ||| st_in (j + i * 8), p.2 ++ [j + i * 8]))
    (0, [])

/-- The function `cast_uint8_to_uint64_W25(st_in, st_out, size)` with the list
of all indices at which it reads `st_in`. -/
def cast_uint8_to_uint64_W25_trace (st_in : Nat → Nat) (size : Nat) : List Nat × List Nat :=
  ((List.range size).map (fun i => (cast_8to64_word_trace st_in i).1),
   (List.range size).flatMap (fun i => (cast_8to64_word_trace st_in i).2))

/-- Loop of `sha3_update` with the number of permutations applied and the
list of the state indices `j` written by `c->st.b[j++] ^= data[i]`. -/
def sha3_update_loop_trace (rsiz : Int) :
    List Nat → List Nat → Int → (List Nat × Int) × Nat × List Int
  | [], b, j => ((b, j), 0, [])
  | d :: ds, b, j =>
    let b1 := xorByte b j d
    let j1 := j + 1
    let r := if j1 ≥ rsiz then sha3_update_loop_trace rsiz ds (keccakf_bytes b1) 0
      else sha3_update_loop_trace rsiz ds b1 j1
    (r.1, (if j1 ≥ rsiz then 1 else 0) + r.2.1, j :: r.2.2)

/-- Loop of `shake_out` with the list of the state indices `j` read by
`out[i] = c->st.b[j++]`. -/
def shake_out_loop_trace (rsiz : Int) :
    Nat → List Nat → Int → (List Nat × List Nat × Int) × List Int
  | 0, b, j => (([], b, j), [])
  | n + 1, b, j =>
    let b1 := if j ≥ rsiz then keccakf_bytes b else b
    let j1 := if j ≥ rsiz then 0 else j
    let r := shake_out_loop_trace rsiz n b1 (j1 + 1)
    ((rdByte b1 j1 :: r.1.1, r.1.2), j1 :: r.2)

/-- An operation on an initialised context: `sha3_update` with some data,
`sha3_final`, `shake_xof`, or `shake_out` with some length. -/
inductive sponge_op where
  | update (data : List Nat)
  | final
  | xof
  | out (len : Nat)

/-- The context after one operation. -/
def sponge_step (c : sha3_ctx_t) : sponge_op → sha3_ctx_t
  | sponge_op.update data => (sha3_update c data).2
  | sponge_op.final => (sha3_final c).2.2
  | sponge_op.xof => shake_xof c
  | sponge_op.out len => (shake_out c len).2

/-- The context after a sequence of operations. -/
def sponge_run (c : sha3_ctx_t) (ops : List sponge_op) : sha3_ctx_t :=
  ops.foldl sponge_step c

/-- Whether an operation is a `shake_out`. -/
def sponge_op.is_out : sponge_op → Bool
  | sponge_op.out _ => true
  | _ => false

/-- The padded state: `S` with `sep` XORed into byte `pt` and `0x80` XORed
into byte `rsiz - 1` (both into the same byte when `pt = rsiz - 1`), every
other byte unchanged. -/
def spec_padded (S : List Nat) (pt rsiz sep : Nat) : List Nat :=
  (List.range S.length).map (fun i =>
    if i = pt ∧ i + 1 = rsiz then S.getD i 0 ^^^ (sep ^^^ 0x80)
    else if i = pt then S.getD i 0 ^^^ sep
    else if i + 1 = rsiz then S.getD i 0 ^^^ 0x80
    else S.getD i 0)

/-- The source lane of step `i` of the Rho Pi loop: the value of `t` when
`st[keccakf_piln[i]]` is written is the initial `st[1]` for `i = 0` and the
initial `st[keccakf_piln[i-1]]` afterwards. -/
def rho_pi_src (i : Nat) : Nat :=
  if i = 0 then 1 else keccakf_piln.getD (i - 1) 0

/-- States of 25 words of 64 bits. -/
def is_state (s : List Nat) : Prop :=
  s.length = 25 ∧ ∀ x ∈ s, x < 2 ^ 64

/-- The inverse of the Rho Pi step on 25 words of 64 bits: lane `src(i)` is
lane `keccakf_piln[i]` rotated left by `64 - keccakf_rotc[i]`. -/
def rho_pi_inverse : List Nat → List Nat
  | [b0, b1, b2, b3, b4, b5, b6, b7, b8, b9, b10, b11, b12, b13, b14, b15, b16, b17, b18, b19, b20, b21, b22, b23, b24] =>
    [b0,
     ROTL64 b10 63,
     ROTL64 b20 2,
     ROTL64 b5 36,
     ROTL64 b15 37,
     ROTL64 b16 28,
     ROTL64 b1 20,
     ROTL64 b11 58,
     ROTL64 b21 9,
     ROTL64 b6 44,
     ROTL64 b7 61,
     ROTL64 b17 54,
     ROTL64 b2 21,
     ROTL64 b12 39,
     ROTL64 b22 25,
     ROTL64 b23 23,
     ROTL64 b8 19,
     ROTL64 b18 49,
     ROTL64 b3 43,
     ROTL64 b13 56,
     ROTL64 b14 46,
     ROTL64 b24 62,
     ROTL64 b9 3,
     ROTL64 b19 8,
     ROTL64 b4 50]
  | st => st

/-! ## The permutation with its rotations and array accesses recorded

The functions of this section repeat the statements of one round of
`sha3_keccakf` through helpers that perform a rotation or an array access and
record it: the amount or the index written in a statement is the one
recorded. -/

/-- A rotation or an array access of a round of `sha3_keccakf`: `rot n` is
`ROTL64(x, n)`, which shifts by `n` and by `64 - n`; `st k`, `bc k`, `rotc k`,
`piln k`, `rndc k` are `st[k]`, `bc[k]`, `keccakf_rotc[k]`, `keccakf_piln[k]`,
`keccakf_rndc[k]`. -/
inductive access where
  | rot (n : Nat)
  | st (k : Nat)
  | bc (k : Nat)
  | rotc (k : Nat)
  | piln (k : Nat)
  | rndc (k : Nat)
  deriving DecidableEq

/-- A rotation amount with `1 ≤ n ≤ 63`, or an index inside its array:
`uint64_t st[25]`, `uint64_t bc[5]`, and the three tables of 24 entries. -/
def access.ok : access → Bool
  | access.rot n => decide (1 ≤ n ∧ n ≤ 63)
  | access.st k => decide (k < 25)
  | access.bc k => decide (k < 5)
  | access.rotc k => decide (k < 24)
  | access.piln k => decide (k < 24)
  | access.rndc k => decide (k < 24)

/-- The amount of a rotation. -/
def access.rot_amount : access → Option Nat
  | access.rot n => some n
  | _ => none

/-- `ROTL64(x, n)`, recorded. -/
def ROTL64_trace (x n : Nat) : Nat × List access := (ROTL64 x n, [access.rot n])

/-- The read `st[k]`, recorded. -/
def rd_st (st : List Nat) (k : Nat) : Nat × List access := (st.getD k 0, [access.st k])

/-- The read `bc[k]`, recorded. -/
def rd_bc (bc : List Nat) (k : Nat) : Nat × List access := (bc.getD k 0, [access.bc k])

/-- The read `keccakf_rotc[k]`, recorded. -/
def rd_rotc (k : Nat) : Nat × List access := (keccakf_rotc.getD k 0, [access.rotc k])

/-- The read `keccakf_piln[k]`, recorded. -/
def rd_piln (k : Nat) : Nat × List access := (keccakf_piln.getD k 0, [access.piln k])

/-- The read `keccakf_rndc[k]`, recorded. -/
def rd_rndc (k : Nat) : Nat × List access := (keccakf_rndc.getD k 0, [access.rndc k])

/-- The statement `st[k] ^= v`, recorded. -/
def xor_st (st : List Nat) (k v : Nat) : List Nat × List access :=
  (xorWord st k v, [access.st k])

/-- The statement `st[k] = v`, recorded. -/
def wr_st (st : List Nat) (k v : Nat) : List Nat × List access := (st.set k v, [access.st k])

/-- Theta, first loop, iteration `i`:
`bc[i] = st[i] ^ st[i + 5] ^ st[i + 10] ^ st[i + 15] ^ st[i + 20]`. -/
def theta_bc_step (st : List Nat) (i : Nat) : Nat × List access :=
  let a0 := rd_st st i
  let a1 := rd_st st (i + 5)
  let a2 := rd_st st (i + 10)
  let a3 := rd_st st (i + 15)
  let a4 := rd_st st (i + 20)
  (a0.1 ^^^ a1.1 ^^^ a2.1 ^^^ a3.1 ^^^ a4.1,
    a0.2 ++ a1.2 ++ a2.2 ++ a3.2 ++ a4.2 ++ [access.bc i])

/-- Theta, first loop. -/
def theta_bc_trace (st : List Nat) : List Nat × List access :=
  ((List.range 5).map (fun i => (theta_bc_step st i).1),
   (List.range 5).flatMap (fun i => (theta_bc_step st i).2))

/-- Theta, second loop, the statement
`t = bc[(i + 4) % 5] ^ ROTL64(bc[(i + 1) % 5], 1)`. -/
def theta_t_trace (bc : List Nat) (i : Nat) : Nat × List access :=
  let b4 := rd_bc bc ((i + 4) % 5)
  let b1 := rd_bc bc ((i + 1) % 5)
  let ro := ROTL64_trace b1.1 1
  (b4.1 ^^^ ro.1, b4.2 ++ b1.2 ++ ro.2)

/-- Theta, second loop, the statement `st[j + i] ^= t`. -/
def theta_xor_step (t i : Nat) (q : List Nat × List access) (j : Nat) :
    List Nat × List access :=
  let w := xor_st q.1 (j + i) t
  (w.1, q.2 ++ w.2)

/-- Theta, second loop, iteration `i`. -/
def theta_step (bc : List Nat) (p : List Nat × List access) (i : Nat) :
    List Nat × List access :=
  let t := theta_t_trace bc i
  [0, 5, 10, 15, 20].foldl (theta_xor_step t.1 i) (p.1, p.2 ++ t.2)

/-- Theta of one round. -/
def theta_trace (st : List Nat) : List Nat × List access :=
  let bc := theta_bc_trace st
  (List.range 5).foldl (theta_step bc.1) (st, bc.2)

/-- Rho Pi, iteration `i`, on the state words and `t`:
`j = keccakf_piln[i]; bc[0] = st[j]; st[j] = ROTL64(t, keccakf_rotc[i]); t = bc[0]`. -/
def rho_pi_step (p : (List Nat × Nat) × List access) (i : Nat) :
    (List Nat × Nat) × List access :=
  let j := rd_piln i
  let bc0 := rd_st p.1.1 j.1
  let n := rd_rotc i
  let ro := ROTL64_trace p.1.2 n.1
  let w := wr_st p.1.1 j.1 ro.1
  ((w.1, bc0.1), p.2 ++ (j.2 ++ bc0.2 ++ [access.bc 0] ++ n.2 ++ ro.2 ++ w.2 ++ [access.bc 0]))

/-- Rho Pi of one round: `t = st[1]`, then the loop over `i = 0..23`. -/
def rho_pi_trace (st : List Nat) : List Nat × List access :=
  let t := rd_st st 1
  let r := (List.range 24).foldl rho_pi_step ((st, t.1), t.2)
  (r.1.1, r.2)

/-- Chi, first inner loop, iteration `i`: `bc[i] = st[j + i]`. -/
def chi_bc_step (st : List Nat) (j i : Nat) : Nat × List access :=
  let a := rd_st st (j + i)
  (a.1, a.2 ++ [access.bc i])

/-- Chi, second inner loop, iteration `i`:
`st[j + i] ^= (~bc[(i + 1) % 5]) & bc[(i + 2) % 5]`. -/
def chi_xor_step (bc : List Nat) (j : Nat) (q : List Nat × List access) (i : Nat) :
    List Nat × List access :=
  let b1 := rd_bc bc ((i + 1) % 5)
  let b2 := rd_bc bc ((i + 2) % 5)
  let w := xor_st q.1 (j + i) (not64 b1.1 &&& b2.1)
  (w.1, q.2 ++ (b1.2 ++ b2.2 ++ w.2))

/-- Chi, iteration `j` of the outer loop. -/
def chi_step (p : List Nat × List access) (j : Nat) : List Nat × List access :=
  let bc := (List.range 5).map (fun i => (chi_bc_step p.1 j i).1)
  let lg := (List.range 5).flatMap (fun i => (chi_bc_step p.1 j i).2)
  (List.range 5).foldl (chi_xor_step bc j) (p.1, p.2 ++ lg)

/-- Chi of one round. -/
def chi_trace (st : List Nat) : List Nat × List access :=
  [0, 5, 10, 15, 20].foldl chi_step (st, [])

/-- Iota of round `r`: `st[0] ^= keccakf_rndc[r]`. -/
def iota_trace (st : List Nat) (r : Nat) : List Nat × List access :=
  let c := rd_rndc r
  let w := xor_st st 0 c.1
  (w.1, c.2 ++ w.2)

/-- One iteration of the round loop of `sha3_keccakf`. -/
def keccakf_round_trace (p : List Nat × List access) (r : Nat) : List Nat × List access :=
  let a := theta_trace p.1
  let b := rho_pi_trace a.1
  let c := chi_trace b.1
  let d := iota_trace c.1 r
  (d.1, p.2 ++ (a.2 ++ b.2 ++ c.2 ++ d.2))

/-- The function `sha3_keccakf(st_in, st_out)` with the rotations and array
accesses of its `KECCAKF_ROUNDS` rounds. -/
def sha3_keccakf_trace (st_in : List Nat) : List Nat × List access :=
  let st := (List.range 25).map (fun i => st_in.getD i 0)
  let r := (List.range KECCAKF_ROUNDS).foldl keccakf_round_trace (st, [])
  ((List.range 25).map (fun i => r.1.getD i 0), r.2)

/-- The rotations and accesses of Theta, as a list. -/
def theta_accesses : List access :=
  (List.range 5).flatMap (fun i =>
    [access.st i, access.st (i + 5), access.st (i + 10), access.st (i + 15),
      access.st (i + 20), access.bc i])
  ++ (List.range 5).flatMap (fun i =>
    [access.bc ((i + 4) % 5), access.bc ((i + 1) % 5), access.rot 1]
      ++ [0, 5, 10, 15, 20].flatMap (fun j => [access.st (j + i)]))

/-- The rotations and accesses of Rho Pi, as a list. -/
def rho_pi_accesses : List access :=
  [access.st 1] ++ (List.range 24).flatMap (fun i =>
    [access.piln i, access.st (keccakf_piln.getD i 0), access.bc 0, access.rotc i,
      access.rot (keccakf_rotc.getD i 0), access.st (keccakf_piln.getD i 0), access.bc 0])

/-- The accesses of Chi, as a list. -/
def chi_accesses : List access :=
  [0, 5, 10, 15, 20].flatMap (fun j =>
    (List.range 5).flatMap (fun i => [access.st (j + i), access.bc i])
    ++ (List.range 5).flatMap (fun i =>
      [access.bc ((i + 1) % 5), access.bc ((i + 2) % 5), access.st (j + i)]))

/-- The rotations and accesses of round `r`, as a list. -/
def round_accesses (r : Nat) : List access :=
  theta_accesses ++ rho_pi_accesses ++ chi_accesses ++ [access.rndc r, access.st 0]

/-! ## Range of `int` -/

theorem wrap_int_of_is_int (x : Int) (h : is_int x) : wrap_int x = x := by
  unfold is_int at h
  unfold wrap_int
  omega

theorem is_int_wrap_int (x : Int) : is_int (wrap_int x) := by
  unfold is_int wrap_int
  omega

theorem sha3_init_rsiz (c : sha3_ctx_t) (mdlen : Int) (h2 : is_int (2 * mdlen))
    (hr : is_int (200 - 2 * mdlen)) : (sha3_init c mdlen).2.rsiz = 200 - 2 * mdlen := by
  show wrap_int (200 - wrap_int (2 * mdlen)) = 200 - 2 * mdlen
  rw [wrap_int_of_is_int _ h2, wrap_int_of_is_int _ hr]

/-! ## Byte and word views of the state -/

theorem cast_step (mem y : Nat) (hy : y < 256) :
    ((mem <<< 8) % 2 ^ 64 &&& 0xFFFFFFFFFFFFFF00) ||| y = (mem % 2 ^ 56) * 256 + y := by
  have h1 : (mem <<< 8) % 2 ^ 64 = 2 ^ 8 * (mem % 2 ^ 56) := by
    rw [Nat.shiftLeft_eq]; omega
  have h2 : (0xFFFFFFFFFFFFFF00 : Nat) = 2 ^ 8 * (2 ^ 56 - 1) := by norm_num
  have hq : mem % 2 ^ 56 < 2 ^ 56 := Nat.mod_lt _ (by norm_num)
  have h3 : 2 ^ 8 * (mem % 2 ^ 56) &&& 2 ^ 8 * (2 ^ 56 - 1) = 2 ^ 8 * (mem % 2 ^ 56) := by
    apply Nat.eq_of_testBit_eq
    intro i
    simp only [Nat.testBit_and, Nat.testBit_mul_pow_two, Nat.testBit_two_pow_sub_one]
    by_cases hi : i - 8 < 56
    · simp only [hi, decide_True, Bool.and_true, Bool.and_self]
      cases decide (i ≥ 8) <;> simp
    · have ht : (mem % 2 ^ 56).testBit (i - 8) = false :=
        Nat.testBit_lt_two_pow (lt_of_lt_of_le hq (Nat.pow_le_pow_right (by norm_num) (by omega)))
      simp only [ht, Bool.and_false, Bool.false_and]
  rw [h1, h2, h3, ← Nat.mul_add_lt_is_or (by simpa using hy)]
  omega

theorem cast_8to64_word_eq (mem : Nat → Nat) (i : Nat) (h : ∀ k, mem k < 256) :
    cast_8to64_word mem i =
      mem (0 + i * 8) + 2 ^ 8 * mem (1 + i * 8) + 2 ^ 16 * mem (2 + i * 8) + 2 ^ 24 * mem (3 + i * 8)
      + 2 ^ 32 * mem (4 + i * 8) + 2 ^ 40 * mem (5 + i * 8) + 2 ^ 48 * mem (6 + i * 8)
      + 2 ^ 56 * mem (7 + i * 8) := by
  simp only [cast_8to64_word, List.foldl]
  rw [cast_step _ _ (h _), cast_step _ _ (h _), cast_step _ _ (h _), cast_step _ _ (h _),
    cast_step _ _ (h _), cast_step _ _ (h _), cast_step _ _ (h _), cast_step _ _ (h _),
    cast_step _ _ (h _)]
  have h0 := h (0 + i * 8)
  have h1 := h (1 + i * 8)
  have h2 := h (2 + i * 8)
  have h3 := h (3 + i * 8)
  have h4 := h (4 + i * 8)
  have h5 := h (5 + i * 8)
  have h6 := h (6 + i * 8)
  have h7 := h (7 + i * 8)
  have h8 := h (8 + i * 8)
  omega


theorem cast_64to8_word_eq (b0 b1 b2 b3 b4 b5 b6 b7 : Nat) (h0 : b0 < 256) (h1 : b1 < 256)
    (h2 : b2 < 256) (h3 : b3 < 256) (h4 : b4 < 256) (h5 : b5 < 256) (h6 : b6 < 256)
    (h7 : b7 < 256) :
    cast_64to8_word (b0 + 2 ^ 8 * b1 + 2 ^ 16 * b2 + 2 ^ 24 * b3 + 2 ^ 32 * b4 + 2 ^ 40 * b5
      + 2 ^ 48 * b6 + 2 ^ 56 * b7) = [b0, b1, b2, b3, b4, b5, b6, b7] := by
  simp only [cast_64to8_word, List.map, Nat.shiftRight_eq_div_pow]
  refine congrArg₂ _ (by omega) (congrArg₂ _ (by omega) (congrArg₂ _ (by omega)
    (congrArg₂ _ (by omega) (congrArg₂ _ (by omega) (congrArg₂ _ (by omega)
    (congrArg₂ _ (by omega) (congrArg₂ _ (by omega) rfl)))))))

theorem getD_map_range (f : Nat → Nat) (n i : Nat) (h : i < n) :
    ((List.range n).map f).getD i 0 = f i := by
  simp [List.getD_eq_getElem?_getD, List.getElem?_map, List.getElem?_range h]

theorem cast_roundtrip_mem (mem : Nat → Nat) (h : ∀ k, mem k < 256) (n : Nat) :
    cast_uint64_to_uint8_W25 (cast_uint8_to_uint64_W25 mem n) n = (List.range (8 * n)).map mem := by
  have key : ∀ m, m ≤ n →
      (List.range m).flatMap
        (fun i => cast_64to8_word ((cast_uint8_to_uint64_W25 mem n).getD i 0))
      = (List.range (8 * m)).map mem := by
    intro m
    induction m with
    | zero => intro _; rfl
    | succ m ih =>
      intro hm
      rw [List.range_succ, List.flatMap_append, ih (by omega)]
      have e : 8 * (m + 1) = 8 * m + 1 + 1 + 1 + 1 + 1 + 1 + 1 + 1 := by omega
      rw [e]
      simp only [List.range_succ, List.map_append, List.flatMap_cons, List.flatMap_nil,
        List.append_nil, List.append_assoc, List.map_cons, List.map_nil, List.singleton_append,
        List.cons_append, List.nil_append]
      congr 1
      unfold cast_uint8_to_uint64_W25
      rw [getD_map_range _ _ _ (by omega), cast_8to64_word_eq mem m h,
        cast_64to8_word_eq _ _ _ _ _ _ _ _ (h _) (h _) (h _) (h _) (h _) (h _) (h _) (h _)]
      have e0 : 0 + m * 8 = 8 * m := by omega
      have e1 : 1 + m * 8 = 8 * m + 1 := by omega
      have e2 : 2 + m * 8 = 8 * m + 1 + 1 := by omega
      have e3 : 3 + m * 8 = 8 * m + 1 + 1 + 1 := by omega
      have e4 : 4 + m * 8 = 8 * m + 1 + 1 + 1 + 1 := by omega
      have e5 : 5 + m * 8 = 8 * m + 1 + 1 + 1 + 1 + 1 := by omega
      have e6 : 6 + m * 8 = 8 * m + 1 + 1 + 1 + 1 + 1 + 1 := by omega
      have e7 : 7 + m * 8 = 8 * m + 1 + 1 + 1 + 1 + 1 + 1 + 1 := by omega
      rw [e0, e1, e2, e3, e4, e5, e6, e7]
  exact key n (le_refl n)

/-- C8. Byte/word view round trip: for every 200-byte array `b`,
`cast_uint64_to_uint8_W25(cast_uint8_to_uint64_W25(b, 25), 25)` is `b`,
whatever byte `oob` the first cast reads at index 200, one past the array. -/
theorem cast_bytes_words_bytes_roundtrip (b : List Nat) (oob : Nat) (hlen : b.length = 200)
    (hb : ∀ x ∈ b, x < 256) (ho : oob < 256) :
    cast_uint64_to_uint8_W25 (cast_uint8_to_uint64_W25 (fun i => b.getD i oob) 25) 25 = b := by
  have hmem : ∀ k, (fun i => b.getD i oob) k < 256 := by
    intro k
    by_cases hk : k < b.length
    · simp only [List.getD_eq_getElem _ _ hk]; exact hb _ (List.getElem_mem hk)
    · simp only [List.getD_eq_default _ _ (Nat.le_of_not_lt hk)]; exact ho
  rw [cast_roundtrip_mem _ hmem 25]
  apply List.ext_getElem
  · simp [hlen]
  · intro i h1 h2
    simp [List.getElem?_eq_getElem h2]

theorem cast_bytes_words_bytes_roundtrip_witness :
    cast_uint64_to_uint8_W25
      (cast_uint8_to_uint64_W25 (fun i => (List.range 200).getD i 0x5A) 25) 25 = List.range 200 :=
  cast_bytes_words_bytes_roundtrip (List.range 200) 0x5A (List.length_range 200)
    (fun x hx => lt_trans (List.mem_range.mp hx) (by norm_num)) (by norm_num)

/-! ## Evaluation forms agree with the embedding -/

theorem theta_eq_lanes (st : List Nat) : theta st = theta_lanes st := by
  unfold theta_lanes
  split
  · simp only [theta, theta_bc, xorWord, List.range, List.range.loop, List.foldl, List.map,
      List.getD_cons_succ, List.getD_cons_zero, List.set_cons_succ, List.set_cons_zero,
      Nat.reduceAdd, Nat.reduceMod, Nat.zero_add]
  · rfl

theorem rho_pi_eq_lanes (st : List Nat) : rho_pi st = rho_pi_lanes st := by
  unfold rho_pi_lanes
  split
  · simp only [rho_pi, keccakf_piln, keccakf_rotc, List.range, List.range.loop, List.foldl,
      List.map, List.getD_cons_succ, List.getD_cons_zero, List.set_cons_succ, List.set_cons_zero,
      Nat.reduceAdd, Nat.reduceMod, Nat.zero_add]
  · rfl

theorem chi_eq_lanes (st : List Nat) : chi st = chi_lanes st := by
  unfold chi_lanes
  split
  · simp only [chi, xorWord, List.range, List.range.loop, List.foldl, List.map,
      List.getD_cons_succ, List.getD_cons_zero, List.set_cons_succ, List.set_cons_zero,
      Nat.reduceAdd, Nat.reduceMod, Nat.zero_add]
  · rfl

theorem keccakf_round_eq_lanes : keccakf_round = keccakf_round_lanes := by
  funext st r
  rw [keccakf_round, keccakf_round_lanes, theta_eq_lanes, rho_pi_eq_lanes, chi_eq_lanes]

theorem sha3_keccakf_eq_lanes (st : List Nat) : sha3_keccakf st = sha3_keccakf_lanes st := by
  rw [sha3_keccakf, sha3_keccakf_lanes, keccakf_round_eq_lanes]

theorem cast_8to64_word_succ (mem : Nat → Nat) (i : Nat) :
    cast_8to64_word mem (i + 1) = cast_8to64_word (fun k => mem (k + 8)) i := by
  have e : ∀ j, j + (i + 1) * 8 = j + i * 8 + 8 := fun j => by omega
  simp only [cast_8to64_word, e]

theorem cast_8to64_chunks_eq (oob : Nat) (ho : oob < 256) (n : Nat) (b : List Nat)
    (hlen : b.length = 8 * n) (hb : ∀ x ∈ b, x < 256) :
    cast_uint8_to_uint64_W25 (fun i => b.getD i oob) n = cast_8to64_chunks b := by
  unfold cast_uint8_to_uint64_W25
  induction n generalizing b with
  | zero =>
    have : b = [] := List.eq_nil_of_length_eq_zero (by simpa using hlen)
    subst this
    rfl
  | succ n ih =>
    match b, hlen, hb with
    | b0 :: b1 :: b2 :: b3 :: b4 :: b5 :: b6 :: b7 :: rest, hlen, hb =>
      have hrest : rest.length = 8 * n := by
        simp only [List.length_cons] at hlen; omega
      have hrb : ∀ x ∈ rest, x < 256 := fun x hx => hb x (by simp [hx])
      have hmem : ∀ k, (fun i => (b0 :: b1 :: b2 :: b3 :: b4 :: b5 :: b6 :: b7 :: rest).getD i oob) k
          < 256 := by
        intro k
        by_cases hk : k < (b0 :: b1 :: b2 :: b3 :: b4 :: b5 :: b6 :: b7 :: rest).length
        · simp only [List.getD_eq_getElem _ _ hk]; exact hb _ (List.getElem_mem hk)
        · simp only [List.getD_eq_default _ _ (Nat.le_of_not_lt hk)]; exact ho
      rw [List.range_succ_eq_map, List.map_cons, List.map_map, cast_8to64_chunks,
        ← ih rest hrest hrb, cast_8to64_word_eq _ 0 hmem]
      congr 1
      apply List.map_congr_left
      intro i _
      simp only [Function.comp, Nat.succ_eq_add_one, cast_8to64_word_succ, List.getD_cons_succ]

theorem keccakf_bytes_eq_eval (b : List Nat) : keccakf_bytes b = keccakf_bytes_eval b := by
  unfold keccakf_bytes_eval
  split
  · next h =>
    rw [keccakf_bytes, cast_8to64_chunks_eq 0 (by norm_num) 25 b h.1 h.2, sha3_keccakf_eq_lanes]
  · rfl

/-! ## Absorption -/

theorem xorByte_natCast (b : List Nat) (j v : Nat) :
    xorByte b (j : Int) v = b.set j ((b.getD j 0 ^^^ v) % 256) := by
  simp [xorByte]

theorem length_xorInto (ds : List Nat) (b : List Nat) (j : Nat) :
    (xorInto b j ds).length = b.length := by
  induction ds generalizing b j with
  | nil => rfl
  | cons d ds ih => simp [xorInto, ih]

theorem xorInto_append (a c : List Nat) (b : List Nat) (j : Nat) :
    xorInto b j (a ++ c) = xorInto (xorInto b j a) (j + a.length) c := by
  induction a generalizing b j with
  | nil => simp [xorInto]
  | cons d a ih =>
    have e : j + 1 + a.length = j + (a.length + 1) := by omega
    rw [List.cons_append, xorInto, xorInto, ih, List.length_cons, e]

theorem xorInto_cons_succ (ds : List Nat) (x : Nat) (b : List Nat) (j : Nat) :
    xorInto (x :: b) (j + 1) ds = x :: xorInto b j ds := by
  induction ds generalizing b j with
  | nil => rfl
  | cons d ds ih => simp [xorInto, ih]

theorem xorInto_zero_eq_zipWith (ds b : List Nat) (hb : ∀ x ∈ b, x < 256)
    (hd : ∀ x ∈ ds, x < 256) :
    xorInto b 0 ds
      = List.zipWith (fun x y => x ^^^ y) b (ds ++ List.replicate (b.length - ds.length) 0) := by
  induction ds generalizing b with
  | nil =>
    simp only [xorInto, List.nil_append, List.length_nil, Nat.sub_zero]
    induction b with
    | nil => rfl
    | cons x b ih =>
      simp only [List.length_cons, List.replicate_succ, List.zipWith_cons_cons, Nat.xor_zero]
      rw [← ih (fun y hy => hb y (List.mem_cons_of_mem _ hy))]
  | cons d ds ih =>
    cases b with
    | nil => simp [xorInto, length_xorInto, List.eq_nil_of_length_eq_zero]
    | cons x b =>
      have hx : x < 256 := hb x (List.mem_cons_self _ _)
      have hd0 : d < 256 := hd d (List.mem_cons_self _ _)
      have hlt : x ^^^ d < 256 := Nat.xor_lt_two_pow (n := 8) hx hd0
      simp only [xorInto, List.set_cons_zero, List.getD_cons_zero, xorInto_cons_succ,
        List.cons_append, List.zipWith_cons_cons, List.length_cons, Nat.add_sub_add_right,
        Nat.mod_eq_of_lt hlt]
      rw [ih b (fun y hy => hb y (List.mem_cons_of_mem _ hy))
        (fun y hy => hd y (List.mem_cons_of_mem _ hy))]

theorem length_cast_uint64_to_uint8_W25 (w : List Nat) (n : Nat) :
    (cast_uint64_to_uint8_W25 w n).length = 8 * n := by
  unfold cast_uint64_to_uint8_W25
  induction n with
  | zero => rfl
  | succ n ih =>
    rw [List.range_succ, List.flatMap_append, List.length_append, ih]
    simp [cast_64to8_word]
    omega

theorem cast_uint64_to_uint8_W25_lt (w : List Nat) (n : Nat) :
    ∀ x ∈ cast_uint64_to_uint8_W25 w n, x < 256 := by
  intro x hx
  simp only [cast_uint64_to_uint8_W25, cast_64to8_word, List.mem_flatMap, List.mem_map] at hx
  obtain ⟨_, _, j, _, rfl⟩ := hx
  exact Nat.mod_lt _ (by norm_num)

theorem length_keccakf_bytes (b : List Nat) : (keccakf_bytes b).length = 200 :=
  length_cast_uint64_to_uint8_W25 _ 25

theorem keccakf_bytes_lt (b : List Nat) : ∀ x ∈ keccakf_bytes b, x < 256 :=
  cast_uint64_to_uint8_W25_lt _ 25

theorem set_getD_self : ∀ (l : List Nat) (j : Nat), l.set j (l.getD j 0) = l
  | [], _ => rfl
  | _ :: _, 0 => rfl
  | x :: l, j + 1 => by
    rw [List.getD_cons_succ, List.set_cons_succ, set_getD_self l j]

theorem getD_lt (b : List Nat) (hb : ∀ x ∈ b, x < 256) (j : Nat) : b.getD j 0 < 256 := by
  by_cases hj : j < b.length
  · rw [List.getD_eq_getElem _ _ hj]; exact hb _ (List.getElem_mem hj)
  · rw [List.getD_eq_default _ _ (by omega)]; norm_num

theorem xorInto_replicate_zero (z : Nat) (b : List Nat) (j : Nat) (hb : ∀ x ∈ b, x < 256) :
    xorInto b j (List.replicate z 0) = b := by
  induction z generalizing j with
  | zero => rfl
  | succ z ih =>
    rw [List.replicate_succ, xorInto, Nat.xor_zero, Nat.mod_eq_of_lt (getD_lt b hb j),
      set_getD_self, ih]

theorem xorInto_lt (ds : List Nat) (b : List Nat) (j : Nat) (hb : ∀ x ∈ b, x < 256) :
    ∀ x ∈ xorInto b j ds, x < 256 := by
  induction ds generalizing b j with
  | nil => exact hb
  | cons d ds ih =>
    apply ih
    intro x hx
    rcases List.mem_or_eq_of_mem_set hx with h | h
    · exact hb x h
    · rw [h]; exact Nat.mod_lt _ (by norm_num)

theorem sha3_update_loop_append (rsiz : Int) (a c b : List Nat) (j : Int) :
    sha3_update_loop rsiz (a ++ c) b j
      = sha3_update_loop rsiz c (sha3_update_loop rsiz a b j).1 (sha3_update_loop rsiz a b j).2 := by
  induction a generalizing b j with
  | nil => rfl
  | cons d a ih =>
    rw [List.cons_append, sha3_update_loop, sha3_update_loop]
    by_cases h : j + 1 ≥ rsiz
    · simp only [h, if_true, ih]
    · simp only [h, if_false, ih]

theorem sha3_update_loop_partial (r : Nat) (ds b : List Nat) (j : Nat)
    (h : j + ds.length < r) :
    sha3_update_loop r ds b j = (xorInto b j ds, ((j + ds.length : Nat) : Int)) := by
  induction ds generalizing b j with
  | nil => rfl
  | cons d ds ih =>
    rw [List.length_cons] at h
    have hlt : ¬ ((j : Int) + 1 ≥ (r : Int)) := by omega
    rw [sha3_update_loop, if_neg hlt, xorByte_natCast]
    have e : (j : Int) + 1 = ((j + 1 : Nat) : Int) := by push_cast; rfl
    rw [e, ih _ (j + 1) (by omega), xorInto, List.length_cons]
    congr 2
    omega

theorem sha3_update_loop_block (r : Nat) (ds b : List Nat) (j : Nat) (hne : ds ≠ [])
    (h : j + ds.length = r) :
    sha3_update_loop r ds b j = (keccakf_bytes (xorInto b j ds), 0) := by
  induction ds generalizing b j with
  | nil => exact absurd rfl hne
  | cons d ds ih =>
    rw [List.length_cons] at h
    rw [sha3_update_loop, xorByte_natCast, xorInto]
    cases ds with
    | nil =>
      have hge : (j : Int) + 1 ≥ (r : Int) := by
        simp only [List.length_nil] at h; omega
      rw [if_pos hge]; rfl
    | cons d1 ds1 =>
      have hlt : ¬ ((j : Int) + 1 ≥ (r : Int)) := by
        simp only [List.length_cons] at h; omega
      have e : (j : Int) + 1 = ((j + 1 : Nat) : Int) := by push_cast; rfl
      rw [if_neg hlt, e]
      exact ih _ (j + 1) (List.cons_ne_nil _ _) (by simp only [List.length_cons] at h ⊢; omega)

theorem length_spec_S (r : Nat) (p : List Nat) (i : Nat) : (spec_S r p i).length = 200 := by
  cases i with
  | zero => rw [spec_S, List.length_replicate]
  | succ i => exact length_keccakf_bytes _

theorem spec_S_lt (r : Nat) (p : List Nat) (i : Nat) : ∀ x ∈ spec_S r p i, x < 256 := by
  cases i with
  | zero =>
    intro x hx
    rw [spec_S, List.mem_replicate] at hx
    rw [hx.2]; norm_num
  | succ i => exact keccakf_bytes_lt _

/-- Absorbing the first `i` whole blocks of `m` from the zero state gives `S_i`. -/
theorem sha3_update_loop_blocks (r : Nat) (hr : 0 < r) (m sfx : List Nat)
    (hm : ∀ x ∈ m, x < 256) (i : Nat) (hi : i * r ≤ m.length) :
    sha3_update_loop r (m.take (i * r)) (List.replicate 200 0) 0
      = (spec_S r (m ++ sfx) i, 0) := by
  induction i with
  | zero => rw [Nat.zero_mul, List.take_zero]; rfl
  | succ i ih =>
    have hle : i * r + r ≤ m.length := by rw [Nat.succ_mul] at hi; exact hi
    have hblk : spec_block r (m ++ sfx) i = (m.drop (i * r)).take r := by
      unfold spec_block
      rw [List.drop_append_of_le_length (by omega), List.take_append_of_le_length]
      rw [List.length_drop]; omega
    have hlen : ((m.drop (i * r)).take r).length = r := by
      rw [List.length_take, List.length_drop]; omega
    have hne : (m.drop (i * r)).take r ≠ [] := by
      intro h; rw [h] at hlen; simp at hlen; omega
    have hbytes : ∀ x ∈ (m.drop (i * r)).take r, x < 256 := fun x hx =>
      hm x (List.mem_of_mem_drop (List.mem_of_mem_take hx))
    rw [Nat.succ_mul, List.take_add, sha3_update_loop_append, ih (by omega)]
    have h0 : ((0 : Nat) : Int) = 0 := rfl
    rw [← h0, sha3_update_loop_block r _ _ 0 hne (by omega),
      xorInto_zero_eq_zipWith _ _ (spec_S_lt _ _ _) hbytes, length_spec_S, hlen, spec_S, hblk]
    rfl

theorem map_rdByte_range (l : List Nat) (n : Nat) (h : n ≤ l.length) :
    (List.range n).map (fun (i : Nat) => rdByte l (i : Int)) = l.take n := by
  apply List.ext_getElem
  · simp [h]
  · intro i h1 h2
    simp only [List.length_map, List.length_range] at h1
    have hi : i < l.length := by omega
    simp [rdByte, List.getElem?_eq_getElem hi]

theorem spec_pad_eq (r : Nat) (m : List Nat) : spec_pad r m = m ++ spec_sfx r (m.length % r) := by
  unfold spec_pad spec_sfx
  split <;> simp

theorem length_spec_sfx (r k : Nat) (hk : k < r) : (spec_sfx r k).length = r - k := by
  unfold spec_sfx
  split
  · simp; omega
  · simp; omega

theorem spec_sfx_lt (r k : Nat) : ∀ x ∈ spec_sfx r k, x < 256 := by
  intro x hx
  unfold spec_sfx at hx
  split at hx
  · simp at hx; omega
  · simp at hx; omega

/-- The two padding stores of `sha3_final` xor the padding suffix into the state. -/
theorem final_pad_eq (X : List Nat) (hX : X.length = 200) (hlt : ∀ x ∈ X, x < 256) (r k : Nat)
    (hk : k < r) (hr : r ≤ 200) :
    (X.set k ((X.getD k 0 ^^^ 0x06) % 256)).set (r - 1)
        (((X.set k ((X.getD k 0 ^^^ 0x06) % 256)).getD (r - 1) 0 ^^^ 0x80) % 256)
      = xorInto X k (spec_sfx r k) := by
  unfold spec_sfx
  split
  · next h =>
    rw [← h]
    have hx := getD_lt X hlt k
    have h6 : X.getD k 0 ^^^ 6 < 256 := Nat.xor_lt_two_pow (n := 8) hx (by norm_num)
    rw [List.set_set, List.getD_eq_getElem _ _ (by rw [List.length_set]; omega),
      List.getElem_set_self, Nat.mod_eq_of_lt h6, Nat.xor_assoc]
    rfl
  · next h =>
    have e : k + 1 + (r - 2 - k) = r - 1 := by omega
    rw [List.append_assoc, List.singleton_append, xorInto, xorInto_append,
      xorInto_replicate_zero, List.length_replicate, e]
    · rfl
    · intro x hx
      rcases List.mem_or_eq_of_mem_set hx with h | h
      · exact hlt x h
      · rw [h]; exact Nat.mod_lt _ (by norm_num)

theorem sha3_update_loop_message (r : Nat) (hr : 0 < r) (m : List Nat)
    (hm : ∀ x ∈ m, x < 256) :
    sha3_update_loop r m (List.replicate 200 0) 0
      = (xorInto (spec_S r (spec_pad r m) (m.length / r)) 0 (m.drop (m.length / r * r)),
          ((m.length % r : Nat) : Int)) := by
  have hdiv : m.length / r * r ≤ m.length := Nat.div_mul_le_self _ _
  have htail : (m.drop (m.length / r * r)).length = m.length % r := by
    rw [List.length_drop, Nat.mod_def, Nat.mul_comm]
  have hk : m.length % r < r := Nat.mod_lt _ hr
  conv_lhs => rw [← List.take_append_drop (m.length / r * r) m]
  rw [sha3_update_loop_append, spec_pad_eq,
    sha3_update_loop_blocks r hr m _ hm _ hdiv]
  have h0 : ((0 : Nat) : Int) = 0 := rfl
  rw [← h0, sha3_update_loop_partial r _ _ 0 (by omega), htail, Nat.zero_add]

/-- C1. `sha3` equals the FIPS 202 sponge reference definition: for every byte
sequence `m` and every `mdlen` with `1 ≤ mdlen ≤ 99`, the bytes written by
`sha3` are the first `mdlen` bytes of `S_n`, the state after absorbing the
`n` blocks of `pad(m)`; `pad(m)` has as its length the least multiple of the
rate strictly greater than the length of `m`. -/
theorem sha3_refines_fips202_sponge (m : List Nat) (mdlen : Nat) (h1 : 1 ≤ mdlen) (h2 : mdlen ≤ 99)
    (hm : ∀ x ∈ m, x < 256) :
    sha3 m (mdlen : Int) = spec_sha3 m mdlen
    ∧ (spec_pad (200 - 2 * mdlen) m).length % (200 - 2 * mdlen) = 0
    ∧ m.length < (spec_pad (200 - 2 * mdlen) m).length
    ∧ (spec_pad (200 - 2 * mdlen) m).length ≤ m.length + (200 - 2 * mdlen) := by
  obtain ⟨r, hr⟩ : ∃ r, r = 200 - 2 * mdlen := ⟨_, rfl⟩
  have hr0 : 0 < r := by omega
  have hr200 : r ≤ 200 := by omega
  have hrsiz : (200 : Int) - 2 * (mdlen : Int) = (r : Int) := by omega
  have hk : m.length % r < r := Nat.mod_lt _ hr0
  have hdiv : m.length / r * r ≤ m.length := Nat.div_mul_le_self _ _
  have hsplit : m.length = m.length / r * r + m.length % r := by
    rw [Nat.mul_comm]; exact (Nat.div_add_mod _ _).symm
  have hplen : (spec_pad r m).length = (m.length / r + 1) * r := by
    rw [spec_pad_eq, List.length_append, length_spec_sfx r _ hk, Nat.succ_mul]
    omega
  rw [← hr]
  refine ⟨?_, ?_, ?_, ?_⟩
  · -- the digest
    have htail : (m.drop (m.length / r * r)).length = m.length % r := by
      rw [List.length_drop]; omega
    have htlt : ∀ x ∈ m.drop (m.length / r * r), x < 256 := fun x hx =>
      hm x (List.mem_of_mem_drop hx)
    have hblock : spec_block r (spec_pad r m) (m.length / r)
        = m.drop (m.length / r * r) ++ spec_sfx r (m.length % r) := by
      unfold spec_block
      rw [spec_pad_eq, List.drop_append_of_le_length hdiv, List.take_of_length_le]
      rw [List.length_append, htail, length_spec_sfx r _ hk]; omega
    have hblen : (m.drop (m.length / r * r) ++ spec_sfx r (m.length % r)).length = r := by
      rw [List.length_append, htail, length_spec_sfx r _ hk]; omega
    have hspec : spec_sha3 m mdlen
        = (keccakf_bytes (xorInto (spec_S r (spec_pad r m) (m.length / r)) 0
            (m.drop (m.length / r * r) ++ spec_sfx r (m.length % r)))).take mdlen := by
      unfold spec_sha3
      simp only [← hr]
      rw [hplen, Nat.mul_div_cancel _ hr0, spec_S, hblock,
        xorInto_zero_eq_zipWith _ _ (spec_S_lt _ _ _), length_spec_S, hblen]
      intro x hx
      rcases List.mem_append.mp hx with h | h
      · exact htlt x h
      · exact spec_sfx_lt _ _ x h
    rw [hspec]
    have hinit : (sha3_init ⟨[], 0, 0, 0⟩ (mdlen : Int)).2
        = ⟨List.replicate 200 0, 0, (r : Int), (mdlen : Int)⟩ := by
      unfold sha3_init
      rw [wrap_int_of_is_int (2 * (mdlen : Int)) (by unfold is_int; omega),
        wrap_int_of_is_int (200 - 2 * (mdlen : Int)) (by unfold is_int; omega), hrsiz]
    unfold sha3
    simp only [hinit]
    unfold sha3_final sha3_update
    simp only []
    rw [sha3_update_loop_message r hr0 m hm]
    simp only []
    have hr1 : (r : Int) - 1 = ((r - 1 : Nat) : Int) := by omega
    rw [hr1, xorByte_natCast, xorByte_natCast,
      final_pad_eq _ (by rw [length_xorInto, length_spec_S])
        (xorInto_lt _ _ _ (spec_S_lt _ _ _)) r _ hk hr200,
      Int.toNat_ofNat, map_rdByte_range _ _ (by rw [length_keccakf_bytes]; omega),
      xorInto_append, htail, Nat.zero_add]
  · rw [hplen]; exact Nat.mul_mod_left _ _
  · rw [hplen, Nat.succ_mul]; omega
  · rw [hplen, Nat.succ_mul]; omega

theorem sha3_refines_fips202_sponge_witness :
    sha3 [0x61, 0x62, 0x63] ((32 : Nat) : Int) = spec_sha3 [0x61, 0x62, 0x63] 32 :=
  (sha3_refines_fips202_sponge [0x61, 0x62, 0x63] 32 (by decide) (by decide) (by decide)).1

/-! ## Chunking, squeezing, absent checks -/

theorem sha3_update_append (c : sha3_ctx_t) (a d : List Nat) :
    (sha3_update c (a ++ d)).2 = (sha3_update (sha3_update c a).2 d).2 := by
  simp only [sha3_update, sha3_update_loop_append]

theorem sha3_update_foldl (ds : List (List Nat)) (c : sha3_ctx_t) :
    ds.foldl (fun c d => (sha3_update c d).2) c = (sha3_update c ds.flatten).2 := by
  induction ds generalizing c with
  | nil => rfl
  | cons d ds ih => rw [List.foldl_cons, ih, List.flatten_cons, sha3_update_append]

/-- C2. Chunking invariance of absorption: calling `sha3_update` with
`d_1`, ..., `d_k` in turn yields the same context as one call with the
concatenation, hence the same result of `sha3_final`; every call returns 1,
and a call with zero bytes leaves the context unchanged. -/
theorem sha3_update_chunking_invariance (c : sha3_ctx_t) (ds : List (List Nat)) :
    ds.foldl (fun c d => (sha3_update c d).2) c = (sha3_update c ds.flatten).2
    ∧ sha3_final (ds.foldl (fun c d => (sha3_update c d).2) c)
        = sha3_final (sha3_update c ds.flatten).2
    ∧ (∀ d, (sha3_update c d).1 = 1)
    ∧ sha3_update c [] = (1, c) := by
  refine ⟨sha3_update_foldl ds c, ?_, fun _ => rfl, rfl⟩
  rw [sha3_update_foldl]

theorem shake_out_loop_add (rsiz : Int) (n1 n2 : Nat) (b : List Nat) (j : Int) :
    shake_out_loop rsiz (n1 + n2) b j
      = ((shake_out_loop rsiz n1 b j).1
            ++ (shake_out_loop rsiz n2 (shake_out_loop rsiz n1 b j).2.1
                  (shake_out_loop rsiz n1 b j).2.2).1,
          (shake_out_loop rsiz n2 (shake_out_loop rsiz n1 b j).2.1
                  (shake_out_loop rsiz n1 b j).2.2).2) := by
  induction n1 generalizing b j with
  | zero => rw [Nat.zero_add]; rfl
  | succ n1 ih =>
    rw [Nat.succ_add, shake_out_loop, shake_out_loop, ih]
    rfl

theorem length_shake_out_loop (rsiz : Int) (n : Nat) (b : List Nat) (j : Int) :
    (shake_out_loop rsiz n b j).1.length = n := by
  induction n generalizing b j with
  | zero => rfl
  | succ n ih => rw [shake_out_loop, List.length_cons, ih]

/-- C3. Squeeze prefix-consistency: the bytes written by `shake_out(c, n1)`
followed by those written by `shake_out` with `n2` on the resulting context
are the `n1 + n2` bytes written by one `shake_out(c, n1 + n2)`, and both runs
end in the same context. -/
theorem shake_out_prefix_consistent (c : sha3_ctx_t) (n1 n2 : Nat) :
    (shake_out c (n1 + n2)).1
        = (shake_out c n1).1 ++ (shake_out (shake_out c n1).2 n2).1
    ∧ (shake_out c (n1 + n2)).2 = (shake_out (shake_out c n1).2 n2).2
    ∧ (shake_out c n1).1.length = n1
    ∧ (shake_out (shake_out c n1).2 n2).1.length = n2
    ∧ (shake_out c (n1 + n2)).1.length = n1 + n2 := by
  refine ⟨?_, ?_, length_shake_out_loop _ _ _ _, length_shake_out_loop _ _ _ _,
    length_shake_out_loop _ _ _ _⟩
  · simp only [shake_out, shake_out_loop_add]
  · simp only [shake_out, shake_out_loop_add]

/-- C9. `sha3_init` performs no validation: for every `int` value `mdlen`,
also when the rate `200 - 2 * mdlen` is not strictly between 0 and 200, it
returns its success value 1, stores `mdlen` and sets `pt = 0`; the rate it
stores is an `int`, and it is `200 - 2 * mdlen` whenever the product
`2 * mdlen` and the difference `200 - 2 * mdlen` are values of `int`. -/
theorem sha3_init_always_succeeds (c : sha3_ctx_t) (mdlen : Int) (hm : is_int mdlen) :
    (sha3_init c mdlen).1 = 1
    ∧ (sha3_init c mdlen).2.mdlen = mdlen
    ∧ is_int (sha3_init c mdlen).2.mdlen
    ∧ (sha3_init c mdlen).2.pt = 0
    ∧ is_int (sha3_init c mdlen).2.rsiz
    ∧ (is_int (2 * mdlen) → is_int (200 - 2 * mdlen) →
        (sha3_init c mdlen).2.rsiz = 200 - 2 * mdlen) :=
  ⟨rfl, rfl, hm, rfl, is_int_wrap_int _, sha3_init_rsiz c mdlen⟩

theorem sha3_init_always_succeeds_witness :
    (sha3_init ⟨[], 0, 0, 0⟩ 100).1 = 1
    ∧ (sha3_init ⟨[], 0, 0, 0⟩ 100).2.mdlen = 100
    ∧ is_int (sha3_init ⟨[], 0, 0, 0⟩ 100).2.mdlen
    ∧ (sha3_init ⟨[], 0, 0, 0⟩ 100).2.pt = 0
    ∧ is_int (sha3_init ⟨[], 0, 0, 0⟩ 100).2.rsiz
    ∧ (is_int (2 * 100) → is_int (200 - 2 * 100) →
        (sha3_init ⟨[], 0, 0, 0⟩ 100).2.rsiz = 200 - 2 * 100) :=
  sha3_init_always_succeeds ⟨[], 0, 0, 0⟩ 100 (by unfold is_int; omega)

/-- C9, as stated, fails: for `mdlen = 100` the rate is `0`, outside `(0, 200)`,
and `sha3_init` returns 1 with a context of rate 0; for `mdlen = 0` the rate
is 200 and for `mdlen = -1` it is 202, with the same return value. -/
theorem sha3_init_accepts_invalid_mdlen :
    ¬ ((0 : Int) < 200 - 2 * 100 ∧ (200 : Int) - 2 * 100 < 200)
    ∧ sha3_init ⟨[], 0, 0, 0⟩ 100 = (1, ⟨List.replicate 200 0, 0, 0, 100⟩)
    ∧ (sha3_init ⟨[], 0, 0, 0⟩ 0).1 = 1 ∧ (sha3_init ⟨[], 0, 0, 0⟩ 0).2.rsiz = 200
    ∧ (sha3_init ⟨[], 0, 0, 0⟩ (-1)).1 = 1 ∧ (sha3_init ⟨[], 0, 0, 0⟩ (-1)).2.rsiz = 202 := by
  refine ⟨by decide, rfl, rfl, rfl, rfl, rfl⟩

/-- C10, as stated, fails: after `sha3_init` with `mdlen = 32` and a first
`sha3_final` (which writes the SHA3-256 digest of the empty message), a second
`sha3_final` on the same context returns 1 and writes 32 further bytes. -/
theorem sha3_final_second_call_succeeds :
    (sha3_final (sha3_final (sha3_init ⟨[], 0, 0, 0⟩ 32).2).2.2).1 = 1
    ∧ (sha3_final (sha3_final (sha3_init ⟨[], 0, 0, 0⟩ 32).2).2.2).2.1 =
      [0xce, 0xe7, 0x4e, 0x16, 0x50, 0xf1, 0x49, 0xc5, 0x91, 0x15, 0x62, 0x32,
       0xfa, 0x15, 0x20, 0x1e, 0xc7, 0x60, 0x39, 0x0c, 0x16, 0xfe, 0xd4, 0xe8,
       0x08, 0xcd, 0xd5, 0xf1, 0xa3, 0xa6, 0x21, 0x7d] := by
  simp only [sha3_final, keccakf_bytes_eq_eval]
  decide!

/-! ## Known answers -/

/-- C4. Empty-message known answers: for `mdlen` 28, 32, 48 and 64, `sha3` on
the empty input returns the published FIPS 202 digest of the empty message
for SHA3-224, SHA3-256, SHA3-384 and SHA3-512. -/
theorem sha3_empty_message_digests :
    sha3 [] 28 =
      [0x6b, 0x4e, 0x03, 0x42, 0x36, 0x67, 0xdb, 0xb7, 0x3b, 0x6e, 0x15, 0x45,
      0x4f, 0x0e, 0xb1, 0xab, 0xd4, 0x59, 0x7f, 0x9a, 0x1b, 0x07, 0x8e, 0x3f,
      0x5b, 0x5a, 0x6b, 0xc7]
    ∧ sha3 [] 32 =
      [0xa7, 0xff, 0xc6, 0xf8, 0xbf, 0x1e, 0xd7, 0x66, 0x51, 0xc1, 0x47, 0x56,
      0xa0, 0x61, 0xd6, 0x62, 0xf5, 0x80, 0xff, 0x4d, 0xe4, 0x3b, 0x49, 0xfa,
      0x82, 0xd8, 0x0a, 0x4b, 0x80, 0xf8, 0x43, 0x4a]
    ∧ sha3 [] 48 =
      [0x0c, 0x63, 0xa7, 0x5b, 0x84, 0x5e, 0x4f, 0x7d, 0x01, 0x10, 0x7d, 0x85,
      0x2e, 0x4c, 0x24, 0x85, 0xc5, 0x1a, 0x50, 0xaa, 0xaa, 0x94, 0xfc, 0x61,
      0x99, 0x5e, 0x71, 0xbb, 0xee, 0x98, 0x3a, 0x2a, 0xc3, 0x71, 0x38, 0x31,
      0x26, 0x4a, 0xdb, 0x47, 0xfb, 0x6b, 0xd1, 0xe0, 0x58, 0xd5, 0xf0, 0x04]
    ∧ sha3 [] 64 =
      [0xa6, 0x9f, 0x73, 0xcc, 0xa2, 0x3a, 0x9a, 0xc5, 0xc8, 0xb5, 0x67, 0xdc,
      0x18, 0x5a, 0x75, 0x6e, 0x97, 0xc9, 0x82, 0x16, 0x4f, 0xe2, 0x58, 0x59,
      0xe0, 0xd1, 0xdc, 0xc1, 0x47, 0x5c, 0x80, 0xa6, 0x15, 0xb2, 0x12, 0x3a,
      0xf1, 0xf5, 0xf9, 0x4c, 0x11, 0xe3, 0xe9, 0x40, 0x2c, 0x3a, 0xc5, 0x58,
      0xf5, 0x00, 0x19, 0x9d, 0x95, 0xb6, 0xd3, 0xe3, 0x01, 0x75, 0x85, 0x86,
      0x28, 0x1d, 0xcd, 0x26] := by
  simp only [sha3, sha3_final, keccakf_bytes_eq_eval]
  decide!

/-- C5. Known answer for a non-empty message: `sha3` on the three bytes "abc"
with `mdlen = 32` returns the FIPS 202 SHA3-256 reference digest. -/
theorem sha3_256_abc_digest :
    sha3 [0x61, 0x62, 0x63] 32 =
      [0x3a, 0x98, 0x5d, 0xa7, 0x4f, 0xe2, 0x25, 0xb2, 0x04, 0x5c, 0x17, 0x2d,
      0x6b, 0xd3, 0x90, 0xbd, 0x85, 0x5f, 0x08, 0x6e, 0x3e, 0x9d, 0x52, 0x5b,
      0x46, 0xbf, 0xe2, 0x45, 0x11, 0x43, 0x15, 0x32] := by
  simp only [sha3, sha3_final, keccakf_bytes_eq_eval]
  decide!

/-- C6. Known answer for the extendable output: `sha3_init(c, 16)`,
`sha3_update` with zero bytes, `shake_xof(c)`, `shake_out(c, out, 32)` writes
the first 32 bytes of the FIPS 202 SHAKE128 output for the empty message. -/
theorem shake128_empty_message_output :
    (shake_out (shake_xof (sha3_update (sha3_init ⟨[], 0, 0, 0⟩ 16).2 []).2) 32).1 =
      [0x7f, 0x9c, 0x2b, 0xa4, 0xe8, 0x8f, 0x82, 0x7d, 0x61, 0x60, 0x45, 0x50,
      0x76, 0x05, 0x85, 0x3e, 0xd7, 0x3b, 0x80, 0x93, 0xf6, 0xef, 0xbc, 0x88,
      0xeb, 0x1a, 0x6e, 0xac, 0xfa, 0x66, 0xef, 0x26] := by
  simp only [shake_xof, keccakf_bytes_eq_eval]
  decide!

/-- C7. Known answer for the permutation: `sha3_keccakf` on the all-zero
25-word state returns the published Keccak-f[1600] output for the zero state,
whose first two words are `0xF1258F7940E1DDE7` and `0x84D5CCF933C0478A`; the
result is not the all-zero state. -/
theorem sha3_keccakf_zero_state :
    sha3_keccakf (List.replicate 25 0) =
      [0xF1258F7940E1DDE7, 0x84D5CCF933C0478A, 0xD598261EA65AA9EE,
      0xBD1547306F80494D, 0x8B284E056253D057, 0xFF97A42D7F8E6FD4,
      0x90FEE5A0A44647C4, 0x8C5BDA0CD6192E76, 0xAD30A6F71B19059C,
      0x30935AB7D08FFC64, 0xEB5AA93F2317D635, 0xA9A6E6260D712103,
      0x81A57C16DBCF555F, 0x43B831CD0347C826, 0x01F22F1A11A5569F,
      0x05E5635A21D9AE61, 0x64BEFEF28CC970F2, 0x613670957BC46611,
      0xB87C5A554FD00ECB, 0x8C3EE88A1CCF32C8, 0x940C7922AE3A2614,
      0x1841F924A2C509E4, 0x16F53526E70465C2, 0x75F644E97F30A13B,
      0xEAF1FF7B5CECA249]
    ∧ sha3_keccakf (List.replicate 25 0) ≠ List.replicate 25 0 := by
  simp only [sha3_keccakf_eq_lanes]
  decide!

/-! ## Initialisation, tables, casts -/

/-- C12. `sha3_init` postcondition: for every `mdlen` for which the product
`2 * mdlen` and the difference `200 - 2 * mdlen` are values of `int`, all 200
state bytes are 0, `pt = 0`, `mdlen` is stored unchanged and
`rsiz = 200 - 2 * mdlen`; the rates for `mdlen` = 32, 28, 48, 64 are 136, 144,
104, 72. -/
theorem sha3_init_postcondition (c : sha3_ctx_t) (mdlen : Int) (h2 : is_int (2 * mdlen))
    (hr : is_int (200 - 2 * mdlen)) :
    (sha3_init c mdlen).2.b.length = 200
    ∧ (∀ i < 200, rdByte (sha3_init c mdlen).2.b (i : Nat) = 0)
    ∧ (sha3_init c mdlen).2.b = List.replicate 200 0
    ∧ (sha3_init c mdlen).2.pt = 0
    ∧ (sha3_init c mdlen).2.mdlen = mdlen
    ∧ (sha3_init c mdlen).2.rsiz = 200 - 2 * mdlen
    ∧ (sha3_init c 32).2.rsiz = 136 ∧ (sha3_init c 28).2.rsiz = 144
    ∧ (sha3_init c 48).2.rsiz = 104 ∧ (sha3_init c 64).2.rsiz = 72 := by
  refine ⟨List.length_replicate _ _, ?_, rfl, rfl, rfl, sha3_init_rsiz c mdlen h2 hr, rfl, rfl,
    rfl, rfl⟩
  intro i hi
  simp only [sha3_init, rdByte, Int.natCast_nonneg, if_true, Int.toNat_ofNat]
  rw [List.getD_eq_getElem _ _ (by rw [List.length_replicate]; exact hi), List.getElem_replicate]

theorem sha3_init_postcondition_witness :
    (sha3_init ⟨[], 7, 7, 7⟩ 16).2.b.length = 200
    ∧ (∀ i < 200, rdByte (sha3_init ⟨[], 7, 7, 7⟩ 16).2.b (i : Nat) = 0)
    ∧ (sha3_init ⟨[], 7, 7, 7⟩ 16).2.b = List.replicate 200 0
    ∧ (sha3_init ⟨[], 7, 7, 7⟩ 16).2.pt = 0
    ∧ (sha3_init ⟨[], 7, 7, 7⟩ 16).2.mdlen = 16
    ∧ (sha3_init ⟨[], 7, 7, 7⟩ 16).2.rsiz = 200 - 2 * 16
    ∧ (sha3_init ⟨[], 7, 7, 7⟩ 32).2.rsiz = 136 ∧ (sha3_init ⟨[], 7, 7, 7⟩ 28).2.rsiz = 144
    ∧ (sha3_init ⟨[], 7, 7, 7⟩ 48).2.rsiz = 104 ∧ (sha3_init ⟨[], 7, 7, 7⟩ 64).2.rsiz = 72 :=
  sha3_init_postcondition ⟨[], 7, 7, 7⟩ 16 (by unfold is_int; omega) (by unfold is_int; omega)

/-- C12, as stated for every `mdlen`, fails: for `mdlen = 2147483647`, the
largest `int`, `sha3_init` returns 1 and stores the rate 202, while
`200 - 2 * mdlen` is `-4294967094`, which is not a value of `int`. -/
theorem sha3_init_rate_overflows :
    is_int 2147483647
    ∧ (sha3_init ⟨[], 0, 0, 0⟩ 2147483647).1 = 1
    ∧ (sha3_init ⟨[], 0, 0, 0⟩ 2147483647).2.rsiz = 202
    ∧ ¬ ((sha3_init ⟨[], 0, 0, 0⟩ 2147483647).2.rsiz = 200 - 2 * 2147483647)
    ∧ ¬ is_int (200 - 2 * 2147483647) := by
  have h : (sha3_init ⟨[], 0, 0, 0⟩ 2147483647).2.rsiz = 202 := by
    show wrap_int (200 - wrap_int (2 * 2147483647)) = 202
    unfold wrap_int
    omega
  refine ⟨by unfold is_int; omega, rfl, h, ?_, by unfold is_int; omega⟩
  rw [h]
  omega

theorem ROTL64_lt (x n : Nat) (hx : x < 2 ^ 64) : ROTL64 x n < 2 ^ 64 := by
  unfold ROTL64
  apply Nat.or_lt_two_pow (Nat.mod_lt _ (by norm_num))
  rw [Nat.shiftRight_eq_div_pow]
  exact lt_of_le_of_lt (Nat.div_le_self _ _) hx

theorem cast_8to64_word_trace_fst (st_in : Nat → Nat) (i : Nat) :
    (cast_8to64_word_trace st_in i).1 = cast_8to64_word st_in i := by
  simp only [cast_8to64_word_trace, cast_8to64_word, List.foldl]

theorem cast_8to64_word_trace_snd (st_in : Nat → Nat) (i : Nat) :
    (cast_8to64_word_trace st_in i).2
      = [8 + i * 8, 7 + i * 8, 6 + i * 8, 5 + i * 8, 4 + i * 8, 3 + i * 8, 2 + i * 8, 1 + i * 8,
          0 + i * 8] := by
  simp only [cast_8to64_word_trace, List.foldl, List.nil_append, List.cons_append]

theorem cast_uint8_to_uint64_W25_trace_fst (st_in : Nat → Nat) (size : Nat) :
    (cast_uint8_to_uint64_W25_trace st_in size).1 = cast_uint8_to_uint64_W25 st_in size := by
  simp only [cast_uint8_to_uint64_W25_trace, cast_uint8_to_uint64_W25, cast_8to64_word_trace_fst]

/-- C17, evaluated on the code: called with `size = 25`, the conversion reads
for the last word `i = 24` the indices 200, 199, .., 192; the first of them,
`j + 8*i` for `j = 8`, is 200, one past the 200-byte state. -/
theorem cast_reads_index_200 :
    (cast_uint8_to_uint64_W25_trace (fun _ => 0) 25).1 = cast_uint8_to_uint64_W25 (fun _ => 0) 25
    ∧ (cast_8to64_word_trace (fun _ => 0) 24).2 = [200, 199, 198, 197, 196, 195, 194, 193, 192]
    ∧ 200 ∈ (cast_uint8_to_uint64_W25_trace (fun _ => 0) 25).2
    ∧ ¬ (∀ k ∈ (cast_uint8_to_uint64_W25_trace (fun _ => 0) 25).2, k ≤ 199) := by
  have hmem : 200 ∈ (cast_uint8_to_uint64_W25_trace (fun _ => 0) 25).2 := by
    simp only [cast_uint8_to_uint64_W25_trace, cast_8to64_word_trace_snd]
    decide
  refine ⟨cast_uint8_to_uint64_W25_trace_fst _ _, ?_, hmem, fun h => ?_⟩
  · rw [cast_8to64_word_trace_snd]
  · exact absurd (h 200 hmem) (by decide)

theorem cast_64to8_word_getD (x k : Nat) (hk : k < 8) :
    (cast_64to8_word x).getD k 0 = (x >>> (8 * k)) % 256 := by
  interval_cases k <;> rfl

theorem cast_uint64_to_uint8_W25_getD (w : List Nat) (n i k : Nat) (hi : i < n) (hk : k < 8) :
    (cast_uint64_to_uint8_W25 w n).getD (8 * i + k) 0 = (w.getD i 0 >>> (8 * k)) % 256 := by
  induction n with
  | zero => omega
  | succ n ih =>
    have e : cast_uint64_to_uint8_W25 w (n + 1)
        = cast_uint64_to_uint8_W25 w n ++ cast_64to8_word (w.getD n 0) := by
      simp only [cast_uint64_to_uint8_W25, List.range_succ, List.flatMap_append,
        List.flatMap_cons, List.flatMap_nil, List.append_nil]
    rw [e]
    by_cases h : i < n
    · rw [List.getD_append _ _ _ _ (by rw [length_cast_uint64_to_uint8_W25]; omega)]
      exact ih h
    · have hin : i = n := by omega
      subst hin
      rw [List.getD_append_right _ _ _ _ (by rw [length_cast_uint64_to_uint8_W25]; omega),
        length_cast_uint64_to_uint8_W25, Nat.add_sub_cancel_left]
      exact cast_64to8_word_getD _ _ hk

/-- C16. Little-endian word packing: for every 200-byte array `b` and `i < 25`,
word `i` of `cast_uint8_to_uint64_W25(b, 25)` is the sum over `k < 8` of
`b[8i+k] * 2^(8k)`, whatever byte `oob` is read at index 200; and for every
word array `w`, byte `8i+k` of `cast_uint64_to_uint8_W25(w, 25)` is
`(w[i] >> 8k) mod 256`. -/
theorem cast_little_endian (b : List Nat) (oob : Nat) (hlen : b.length = 200)
    (hb : ∀ x ∈ b, x < 256) (ho : oob < 256) (w : List Nat) :
    (∀ i < 25, (cast_uint8_to_uint64_W25 (fun k => b.getD k oob) 25).getD i 0
        = ∑ k in Finset.range 8, b.getD (8 * i + k) 0 * 2 ^ (8 * k))
    ∧ (∀ i < 25, ∀ k < 8,
        (cast_uint64_to_uint8_W25 w 25).getD (8 * i + k) 0 = (w.getD i 0 >>> (8 * k)) % 256) := by
  refine ⟨fun i hi => ?_, fun i hi k hk => cast_uint64_to_uint8_W25_getD w 25 i k hi hk⟩
  have hmem : ∀ k, (fun k => b.getD k oob) k < 256 := by
    intro k
    by_cases hk : k < b.length
    · simp only [List.getD_eq_getElem _ _ hk]; exact hb _ (List.getElem_mem hk)
    · simp only [List.getD_eq_default _ _ (Nat.le_of_not_lt hk)]; exact ho
  have hget : ∀ k, k < 8 → b.getD (k + i * 8) oob = b.getD (8 * i + k) 0 := by
    intro k hk
    have h1 : k + i * 8 < b.length := by omega
    have h2 : 8 * i + k < b.length := by omega
    rw [List.getD_eq_getElem _ _ h1, List.getD_eq_getElem _ _ h2]
    congr 1
    omega
  unfold cast_uint8_to_uint64_W25
  rw [getD_map_range _ _ _ hi, cast_8to64_word_eq _ i hmem]
  simp only [hget 0 (by norm_num), hget 1 (by norm_num), hget 2 (by norm_num),
    hget 3 (by norm_num), hget 4 (by norm_num), hget 5 (by norm_num), hget 6 (by norm_num),
    hget 7 (by norm_num), Finset.sum_range_succ, Finset.sum_range_zero]
  ring

theorem cast_little_endian_witness :
    (∀ i < 25, (cast_uint8_to_uint64_W25 (fun k => (List.range 200).getD k 0x5A) 25).getD i 0
        = ∑ k in Finset.range 8, (List.range 200).getD (8 * i + k) 0 * 2 ^ (8 * k))
    ∧ (∀ i < 25, ∀ k < 8,
        (cast_uint64_to_uint8_W25 keccakf_rndc 25).getD (8 * i + k) 0
          = (keccakf_rndc.getD i 0 >>> (8 * k)) % 256) :=
  cast_little_endian (List.range 200) 0x5A (List.length_range 200)
    (fun x hx => lt_trans (List.mem_range.mp hx) (by norm_num)) (by norm_num) keccakf_rndc

/-! ## Finalisation -/

theorem getD_set (l : List Nat) (i j a : Nat) :
    (l.set i a).getD j 0 = if i = j ∧ j < l.length then a else l.getD j 0 := by
  by_cases hj : j < l.length
  · rw [List.getD_eq_getElem _ _ (by rw [List.length_set]; exact hj), List.getElem_set,
      List.getD_eq_getElem _ _ hj]
    by_cases hij : i = j <;> simp [hij, hj]
  · rw [List.getD_eq_default _ _ (by rw [List.length_set]; omega),
      List.getD_eq_default _ _ (by omega)]
    simp [hj]

/-- The two padding stores of `sha3_final` and `shake_xof` produce the padded
state `spec_padded`. -/
theorem xorByte_pad_eq (S : List Nat) (pt r sep : Nat) (hb : ∀ x ∈ S, x < 256) (hsep : sep < 256)
    (hpt : pt < r) :
    xorByte (xorByte S (pt : Int) sep) ((r : Int) - 1) 0x80 = spec_padded S pt r sep := by
  have hr1 : (r : Int) - 1 = ((r - 1 : Nat) : Int) := by omega
  rw [hr1, xorByte_natCast, xorByte_natCast]
  apply List.ext_getElem
  · simp [spec_padded]
  · intro i h1 h2
    have hi : i < S.length := by simpa using h1
    have hx : S.getD i 0 < 256 := getD_lt S hb i
    have h6 : S.getD i 0 ^^^ sep < 256 := Nat.xor_lt_two_pow (n := 8) hx hsep
    have h8 : S.getD i 0 ^^^ 0x80 < 256 := Nat.xor_lt_two_pow (n := 8) hx (by norm_num)
    have h68 : (S.getD i 0 ^^^ sep) ^^^ 0x80 < 256 := Nat.xor_lt_two_pow (n := 8) h6 (by norm_num)
    have h68a : S.getD i 0 ^^^ (sep ^^^ 0x80) < 256 := by rw [← Nat.xor_assoc]; exact h68
    rw [← List.getD_eq_getElem _ 0 h1, ← List.getD_eq_getElem _ 0 h2, getD_set, getD_set,
      getD_set]
    simp only [spec_padded, getD_map_range _ _ _ hi, List.length_set]
    by_cases ha : i = pt
    · by_cases hb2 : i + 1 = r
      · have e : r - 1 = i := by omega
        subst ha
        simp only [e, hi, and_self, if_true, hb2, Nat.mod_eq_of_lt h6, Nat.xor_assoc,
          Nat.mod_eq_of_lt h68a]
      · have e : ¬ (r - 1 = i) := by omega
        subst ha
        simp only [e, false_and, if_false, hi, and_self, if_true, hb2, and_false,
          Nat.mod_eq_of_lt h6]
    · by_cases hb2 : i + 1 = r
      · have e : r - 1 = i := by omega
        have e2 : ¬ (pt = i) := fun h => ha h.symm
        have e3 : ¬ (pt = r - 1) := by omega
        simp only [e, hi, and_self, if_true, ha, hb2, false_and, if_false, e2,
          Nat.mod_eq_of_lt h8]
      · have e : ¬ (r - 1 = i) := by omega
        have e2 : ¬ (pt = i) := fun h => ha h.symm
        simp only [e, false_and, if_false, e2, ha, hb2, and_false]

theorem length_spec_padded (S : List Nat) (pt r sep : Nat) :
    (spec_padded S pt r sep).length = S.length := by
  simp [spec_padded]

/-- C13. `sha3_final` postcondition: on a context with state bytes `S`,
`0 ≤ pt < rsiz ≤ 200` and `0 ≤ mdlen ≤ 200`, `sha3_final` returns 1, writes
exactly `mdlen` bytes, the first `mdlen` bytes of `P(S')`, and leaves the state
bytes `P(S')` with the other fields unchanged; `S'` is `S` with `0x06` XORed
into byte `pt` and `0x80` into byte `rsiz - 1`, `P` is `keccakf_bytes`. -/
theorem sha3_final_postcondition (S : List Nat) (pt r md : Nat) (_hS : S.length = 200)
    (hb : ∀ x ∈ S, x < 256) (hpt : pt < r) (_hr : r ≤ 200) (hmd : md ≤ 200) :
    sha3_final ⟨S, (pt : Int), (r : Int), (md : Int)⟩
      = (1, (keccakf_bytes (spec_padded S pt r 0x06)).take md,
          ⟨keccakf_bytes (spec_padded S pt r 0x06), (pt : Int), (r : Int), (md : Int)⟩)
    ∧ ((keccakf_bytes (spec_padded S pt r 0x06)).take md).length = md := by
  have hlen : md ≤ (keccakf_bytes (spec_padded S pt r 0x06)).length := by
    rw [length_keccakf_bytes]; exact hmd
  refine ⟨?_, by rw [List.length_take]; omega⟩
  unfold sha3_final
  simp only []
  rw [xorByte_pad_eq S pt r 0x06 hb (by norm_num) hpt, Int.toNat_ofNat,
    map_rdByte_range _ _ hlen]

theorem sha3_final_postcondition_witness :
    sha3_final ⟨List.replicate 200 0, ((0 : Nat) : Int), ((136 : Nat) : Int), ((32 : Nat) : Int)⟩
      = (1, (keccakf_bytes (spec_padded (List.replicate 200 0) 0 136 0x06)).take 32,
          ⟨keccakf_bytes (spec_padded (List.replicate 200 0) 0 136 0x06), ((0 : Nat) : Int),
            ((136 : Nat) : Int), ((32 : Nat) : Int)⟩)
    ∧ ((keccakf_bytes (spec_padded (List.replicate 200 0) 0 136 0x06)).take 32).length = 32 :=
  sha3_final_postcondition (List.replicate 200 0) 0 136 32 (List.length_replicate _ _)
    (fun x hx => by rw [(List.mem_replicate.mp hx).2]; norm_num) (by norm_num) (by norm_num)
    (by norm_num)

/-- C14. `shake_xof` postcondition: on a context with state bytes `S` and
`0 ≤ pt < rsiz ≤ 200`, `shake_xof` leaves the state bytes `P(S'')`, sets
`pt = 0` and leaves `rsiz` and `mdlen` unchanged; `S''` is `S` with `0x1F` XORed
into byte `pt` and `0x80` into byte `rsiz - 1`.  This is the state
`sha3_final` leaves, with the separator `0x1F` in place of `0x06`. -/
theorem shake_xof_postcondition (S : List Nat) (pt r : Nat) (md : Int) (_hS : S.length = 200)
    (hb : ∀ x ∈ S, x < 256) (hpt : pt < r) (_hr : r ≤ 200) :
    shake_xof ⟨S, (pt : Int), (r : Int), md⟩
      = ⟨keccakf_bytes (spec_padded S pt r 0x1F), 0, (r : Int), md⟩
    ∧ (sha3_final ⟨S, (pt : Int), (r : Int), md⟩).2.2.b = keccakf_bytes (spec_padded S pt r 0x06) := by
  constructor
  · unfold shake_xof
    simp only []
    rw [xorByte_pad_eq S pt r 0x1F hb (by norm_num) hpt]
  · unfold sha3_final
    simp only []
    rw [xorByte_pad_eq S pt r 0x06 hb (by norm_num) hpt]

theorem shake_xof_postcondition_witness :
    shake_xof ⟨List.replicate 200 0, ((0 : Nat) : Int), ((168 : Nat) : Int), 16⟩
      = ⟨keccakf_bytes (spec_padded (List.replicate 200 0) 0 168 0x1F), 0, ((168 : Nat) : Int), 16⟩
    ∧ (sha3_final ⟨List.replicate 200 0, ((0 : Nat) : Int), ((168 : Nat) : Int), 16⟩).2.2.b
        = keccakf_bytes (spec_padded (List.replicate 200 0) 0 168 0x06) :=
  shake_xof_postcondition (List.replicate 200 0) 0 168 16 (List.length_replicate _ _)
    (fun x hx => by rw [(List.mem_replicate.mp hx).2]; norm_num) (by norm_num) (by norm_num)

/-- The result of `sha3_final` in terms of the padded state. -/
theorem sha3_final_eq (S : List Nat) (pt r md : Nat) (hb : ∀ x ∈ S, x < 256) (hpt : pt < r)
    (hmd : md ≤ 200) :
    sha3_final ⟨S, (pt : Int), (r : Int), (md : Int)⟩
      = (1, (keccakf_bytes (spec_padded S pt r 0x06)).take md,
          ⟨keccakf_bytes (spec_padded S pt r 0x06), (pt : Int), (r : Int), (md : Int)⟩) := by
  have hlen : md ≤ (keccakf_bytes (spec_padded S pt r 0x06)).length := by
    rw [length_keccakf_bytes]; exact hmd
  unfold sha3_final
  simp only []
  rw [xorByte_pad_eq S pt r 0x06 hb (by norm_num) hpt, Int.toNat_ofNat,
    map_rdByte_range _ _ hlen]

/-- C10. `sha3_final` keeps no record of an earlier call: on a context with
200 state bytes `S`, `0 ≤ pt < rsiz ≤ 200` and `0 ≤ mdlen ≤ 200`, a second
call on the context left by a first call returns the success value 1 again;
the first call leaves `pt`, `rsiz` and `mdlen` as they were, and the second
writes `mdlen` bytes once more, the first `mdlen` bytes of the state obtained
by padding and permuting the state the first call left. -/
theorem sha3_final_twice (S : List Nat) (pt r md : Nat) (_hS : S.length = 200)
    (hb : ∀ x ∈ S, x < 256) (hpt : pt < r) (_hr : r ≤ 200) (hmd : md ≤ 200) :
    (sha3_final (sha3_final ⟨S, (pt : Int), (r : Int), (md : Int)⟩).2.2).1 = 1
    ∧ (sha3_final (sha3_final ⟨S, (pt : Int), (r : Int), (md : Int)⟩).2.2).2.1.length = md
    ∧ (sha3_final ⟨S, (pt : Int), (r : Int), (md : Int)⟩).2.2.pt = (pt : Int)
    ∧ (sha3_final ⟨S, (pt : Int), (r : Int), (md : Int)⟩).2.2.rsiz = (r : Int)
    ∧ (sha3_final ⟨S, (pt : Int), (r : Int), (md : Int)⟩).2.2.mdlen = (md : Int)
    ∧ (sha3_final ⟨S, (pt : Int), (r : Int), (md : Int)⟩).2.2.b
        = keccakf_bytes (spec_padded S pt r 0x06)
    ∧ (sha3_final (sha3_final ⟨S, (pt : Int), (r : Int), (md : Int)⟩).2.2).2.2.b
        = keccakf_bytes (spec_padded (keccakf_bytes (spec_padded S pt r 0x06)) pt r 0x06)
    ∧ (sha3_final (sha3_final ⟨S, (pt : Int), (r : Int), (md : Int)⟩).2.2).2.1
        = (keccakf_bytes
            (spec_padded (keccakf_bytes (spec_padded S pt r 0x06)) pt r 0x06)).take md := by
  have h1 := sha3_final_eq S pt r md hb hpt hmd
  have h2 := sha3_final_eq (keccakf_bytes (spec_padded S pt r 0x06)) pt r md
    (keccakf_bytes_lt _) hpt hmd
  have h3 : sha3_final (sha3_final ⟨S, (pt : Int), (r : Int), (md : Int)⟩).2.2
      = (1, (keccakf_bytes
              (spec_padded (keccakf_bytes (spec_padded S pt r 0x06)) pt r 0x06)).take md,
          ⟨keccakf_bytes (spec_padded (keccakf_bytes (spec_padded S pt r 0x06)) pt r 0x06),
            (pt : Int), (r : Int), (md : Int)⟩) := by
    rw [h1]
    exact h2
  rw [h3, h1]
  refine ⟨rfl, ?_, rfl, rfl, rfl, rfl, rfl, rfl⟩
  show ((keccakf_bytes
    (spec_padded (keccakf_bytes (spec_padded S pt r 0x06)) pt r 0x06)).take md).length = md
  rw [List.length_take, length_keccakf_bytes]
  omega

theorem sha3_final_twice_witness :
    (sha3_final (sha3_final ⟨List.replicate 200 0, ((0 : Nat) : Int), ((136 : Nat) : Int),
        ((32 : Nat) : Int)⟩).2.2).1 = 1
    ∧ (sha3_final (sha3_final ⟨List.replicate 200 0, ((0 : Nat) : Int), ((136 : Nat) : Int),
        ((32 : Nat) : Int)⟩).2.2).2.1.length = 32
    ∧ (sha3_final ⟨List.replicate 200 0, ((0 : Nat) : Int), ((136 : Nat) : Int),
        ((32 : Nat) : Int)⟩).2.2.pt = ((0 : Nat) : Int)
    ∧ (sha3_final ⟨List.replicate 200 0, ((0 : Nat) : Int), ((136 : Nat) : Int),
        ((32 : Nat) : Int)⟩).2.2.rsiz = ((136 : Nat) : Int)
    ∧ (sha3_final ⟨List.replicate 200 0, ((0 : Nat) : Int), ((136 : Nat) : Int),
        ((32 : Nat) : Int)⟩).2.2.mdlen = ((32 : Nat) : Int)
    ∧ (sha3_final ⟨List.replicate 200 0, ((0 : Nat) : Int), ((136 : Nat) : Int),
        ((32 : Nat) : Int)⟩).2.2.b
        = keccakf_bytes (spec_padded (List.replicate 200 0) 0 136 0x06)
    ∧ (sha3_final (sha3_final ⟨List.replicate 200 0, ((0 : Nat) : Int), ((136 : Nat) : Int),
        ((32 : Nat) : Int)⟩).2.2).2.2.b
        = keccakf_bytes (spec_padded (keccakf_bytes (spec_padded (List.replicate 200 0) 0 136 0x06))
            0 136 0x06)
    ∧ (sha3_final (sha3_final ⟨List.replicate 200 0, ((0 : Nat) : Int), ((136 : Nat) : Int),
        ((32 : Nat) : Int)⟩).2.2).2.1
        = (keccakf_bytes
            (spec_padded (keccakf_bytes (spec_padded (List.replicate 200 0) 0 136 0x06))
              0 136 0x06)).take 32 :=
  sha3_final_twice (List.replicate 200 0) 0 136 32 (List.length_replicate _ _)
    (fun x hx => by rw [(List.mem_replicate.mp hx).2]; norm_num) (by norm_num) (by norm_num)
    (by norm_num)

/-! ## Squeezing -/

theorem shake_out_loop_trace_fst (rsiz : Int) (n : Nat) (b : List Nat) (j : Int) :
    (shake_out_loop_trace rsiz n b j).1 = shake_out_loop rsiz n b j := by
  induction n generalizing b j with
  | zero => rfl
  | succ n ih => simp only [shake_out_loop_trace, shake_out_loop, ih]

theorem shake_out_loop_closed (r : Nat) (hr : 0 < r) (n : Nat) (b : List Nat) (j : Nat)
    (hj : j ≤ r) :
    (∀ k < n, (shake_out_loop r n b j).1.getD k 0
        = (keccakf_bytes^[(j + k) / r] b).getD ((j + k) % r) 0)
    ∧ (shake_out_loop_trace r n b j).2 = (List.range n).map (fun k => (((j + k) % r : Nat) : Int)) := by
  induction n generalizing b j with
  | zero => exact ⟨fun k hk => absurd hk (Nat.not_lt_zero k), rfl⟩
  | succ n ih =>
    rw [List.range_succ_eq_map, List.map_cons, List.map_map]
    by_cases hjr : j < r
    · have hlt : ¬ ((j : Int) ≥ (r : Int)) := by omega
      have e : (j : Int) + 1 = ((j + 1 : Nat) : Int) := by push_cast; rfl
      obtain ⟨ih1, ih2⟩ := ih b (j + 1) (by omega)
      constructor
      · intro k hk
        rw [shake_out_loop]
        simp only [if_neg hlt, e]
        cases k with
        | zero =>
          simp only [List.getD_cons_zero, Nat.add_zero, Nat.div_eq_of_lt hjr, Nat.mod_eq_of_lt hjr,
            Function.iterate_zero, id_eq, rdByte, Int.natCast_nonneg, if_true, Int.toNat_ofNat]
        | succ k =>
          rw [List.getD_cons_succ, ih1 k (by omega)]
          have e2 : j + 1 + k = j + (k + 1) := by omega
          rw [e2]
      · rw [shake_out_loop_trace]
        simp only [if_neg hlt, e, ih2, Nat.add_zero, Nat.mod_eq_of_lt hjr]
        congr 1
        apply List.map_congr_left
        intro k _
        simp only [Function.comp, Nat.succ_eq_add_one]
        have e2 : j + 1 + k = j + (k + 1) := by omega
        rw [e2]
    · have hjeq : j = r := by omega
      subst hjeq
      have hge : ((j : Int) ≥ (j : Int)) := le_refl _
      have e : (0 : Int) + 1 = ((0 + 1 : Nat) : Int) := by push_cast
      obtain ⟨ih1, ih2⟩ := ih (keccakf_bytes b) (0 + 1) (by omega)
      constructor
      · intro k hk
        rw [shake_out_loop]
        simp only [if_pos hge, e]
        cases k with
        | zero =>
          simp only [List.getD_cons_zero, Nat.add_zero, Nat.div_self hr, Nat.mod_self,
            Function.iterate_succ, Function.iterate_zero, Function.comp, id_eq, rdByte,
            le_refl, if_true, Int.toNat_zero]
        | succ k =>
          rw [List.getD_cons_succ, ih1 k (by omega), ← Function.iterate_succ_apply]
          have e2 : (j + (k + 1)) / j = (0 + 1 + k) / j + 1 := by
            rw [show j + (k + 1) = (0 + 1 + k) + j by omega, Nat.add_div_right _ hr]
          have e3 : (j + (k + 1)) % j = (0 + 1 + k) % j := by
            rw [show j + (k + 1) = (0 + 1 + k) + j by omega, Nat.add_mod_right]
          rw [e2, e3]
      · rw [shake_out_loop_trace]
        simp only [if_pos hge, e, ih2, Nat.add_zero, Nat.mod_self, Nat.cast_zero]
        congr 1
        apply List.map_congr_left
        intro k _
        simp only [Function.comp, Nat.succ_eq_add_one]
        have e3 : (j + (k + 1)) % j = (0 + 1 + k) % j := by
          rw [show j + (k + 1) = (0 + 1 + k) + j by omega, Nat.add_mod_right]
        rw [e3]

/-- C15. `shake_out` closed form: on a context with state bytes `S`,
`0 < rsiz` and `0 ≤ pt ≤ rsiz`, `shake_out` writes exactly `len` bytes, the
`k`-th being byte `(pt + k) mod rsiz` of `P^q(S)` with `q = (pt + k) div rsiz`;
the state indices it reads are `(pt + k) mod rsiz` for `k < len`, all below
`rsiz`. -/
theorem shake_out_closed_form (S : List Nat) (pt r : Nat) (md : Int) (hr : 0 < r)
    (_hr200 : r ≤ 200) (hpt : pt ≤ r) (len : Nat) :
    (shake_out ⟨S, (pt : Int), (r : Int), md⟩ len).1.length = len
    ∧ (∀ k < len, (shake_out ⟨S, (pt : Int), (r : Int), md⟩ len).1.getD k 0
        = (keccakf_bytes^[(pt + k) / r] S).getD ((pt + k) % r) 0)
    ∧ (shake_out_loop_trace r len S pt).1 = shake_out_loop r len S pt
    ∧ (shake_out_loop_trace r len S pt).2
        = (List.range len).map (fun k => (((pt + k) % r : Nat) : Int))
    ∧ (∀ idx ∈ (shake_out_loop_trace r len S pt).2, 0 ≤ idx ∧ idx < (r : Int)) := by
  obtain ⟨h1, h2⟩ := shake_out_loop_closed r hr len S pt hpt
  refine ⟨length_shake_out_loop _ _ _ _, h1, shake_out_loop_trace_fst _ _ _ _, h2, ?_⟩
  intro idx hidx
  rw [h2, List.mem_map] at hidx
  obtain ⟨k, _, rfl⟩ := hidx
  have := Nat.mod_lt (pt + k) hr
  omega

theorem shake_out_closed_form_witness :
    (shake_out ⟨List.replicate 200 0, ((168 : Nat) : Int), ((168 : Nat) : Int), 16⟩ 400).1.length
      = 400
    ∧ (∀ k < 400,
        (shake_out ⟨List.replicate 200 0, ((168 : Nat) : Int), ((168 : Nat) : Int), 16⟩ 400).1.getD
            k 0
          = (keccakf_bytes^[(168 + k) / 168] (List.replicate 200 0)).getD ((168 + k) % 168) 0)
    ∧ (shake_out_loop_trace (168 : Nat) 400 (List.replicate 200 0) (168 : Nat)).1
        = shake_out_loop (168 : Nat) 400 (List.replicate 200 0) (168 : Nat)
    ∧ (shake_out_loop_trace (168 : Nat) 400 (List.replicate 200 0) (168 : Nat)).2
        = (List.range 400).map (fun k => (((168 + k) % 168 : Nat) : Int))
    ∧ (∀ idx ∈ (shake_out_loop_trace (168 : Nat) 400 (List.replicate 200 0) (168 : Nat)).2,
        0 ≤ idx ∧ idx < ((168 : Nat) : Int)) :=
  shake_out_closed_form (List.replicate 200 0) 168 168 16 (by norm_num) (by norm_num)
    (le_refl _) 400

/-! ## Absorbing: cursor, permutation count and frame -/

theorem sha3_update_loop_trace_fst (rsiz : Int) (ds b : List Nat) (j : Int) :
    (sha3_update_loop_trace rsiz ds b j).1 = sha3_update_loop rsiz ds b j := by
  induction ds generalizing b j with
  | nil => rfl
  | cons d ds ih =>
    rw [sha3_update_loop_trace, sha3_update_loop]
    by_cases h : j + 1 ≥ rsiz
    · simp only [if_pos h, ih]
    · simp only [if_neg h, ih]

theorem sha3_update_loop_trace_counts (r : Nat) (ds b : List Nat) (j : Nat) (hj : j < r) :
    (sha3_update_loop_trace r ds b j).1.2 = (((j + ds.length) % r : Nat) : Int)
    ∧ (sha3_update_loop_trace r ds b j).2.1 = (j + ds.length) / r
    ∧ (∀ idx ∈ (sha3_update_loop_trace r ds b j).2.2, 0 ≤ idx ∧ idx < (r : Int)) := by
  induction ds generalizing b j with
  | nil =>
    refine ⟨?_, ?_, ?_⟩
    · simp only [sha3_update_loop_trace, List.length_nil, Nat.add_zero, Nat.mod_eq_of_lt hj]
    · simp only [sha3_update_loop_trace, List.length_nil, Nat.add_zero, Nat.div_eq_of_lt hj]
    · intro idx hidx
      simp [sha3_update_loop_trace] at hidx
  | cons d ds ih =>
    have hr : 0 < r := by omega
    rw [sha3_update_loop_trace, List.length_cons]
    by_cases h : (j : Int) + 1 ≥ (r : Int)
    · have hjr : j + 1 = r := by omega
      obtain ⟨i1, i2, i3⟩ := ih (keccakf_bytes (xorByte b j d)) 0 hr
      have e0 : ((0 : Nat) : Int) = 0 := rfl
      rw [e0] at i1 i2 i3
      have e1 : j + (ds.length + 1) = (0 + ds.length) + r := by omega
      simp only [if_pos h]
      refine ⟨?_, ?_, ?_⟩
      · rw [i1, e1, Nat.add_mod_right]
      · rw [i2, e1, Nat.add_div_right _ hr]
        omega
      · intro idx hidx
        rcases List.mem_cons.1 hidx with hx | hx
        · subst hx
          omega
        · exact i3 idx hx
    · have hjr : j + 1 < r := by omega
      obtain ⟨i1, i2, i3⟩ := ih (xorByte b j d) (j + 1) hjr
      have e0 : (((j + 1 : Nat)) : Int) = (j : Int) + 1 := by push_cast; rfl
      rw [e0] at i1 i2 i3
      have e1 : j + (ds.length + 1) = j + 1 + ds.length := by omega
      simp only [if_neg h]
      refine ⟨?_, ?_, ?_⟩
      · rw [i1, e1]
      · rw [i2, e1]
        omega
      · intro idx hidx
        rcases List.mem_cons.1 hidx with hx | hx
        · subst hx
          omega
        · exact i3 idx hx

theorem xorInto_getD (ds : List Nat) (b : List Nat) (j : Nat) (hb : ∀ x ∈ b, x < 256)
    (hd : ∀ x ∈ ds, x < 256) (hlen : j + ds.length ≤ b.length) (i : Nat) :
    (xorInto b j ds).getD i 0
      = if j ≤ i ∧ i < j + ds.length then b.getD i 0 ^^^ ds.getD (i - j) 0 else b.getD i 0 := by
  induction ds generalizing b j with
  | nil =>
    have hn : ¬ (j ≤ i ∧ i < j + ([] : List Nat).length) := by
      rw [List.length_nil]
      omega
    rw [xorInto, if_neg hn]
  | cons d ds ih =>
    rw [List.length_cons] at hlen
    have hdlt : d < 256 := hd d (List.mem_cons_self _ _)
    have hjlt : b.getD j 0 < 256 := getD_lt b hb j
    have hx : b.getD j 0 ^^^ d < 256 := Nat.xor_lt_two_pow (n := 8) hjlt hdlt
    have hb1 : ∀ x ∈ b.set j ((b.getD j 0 ^^^ d) % 256), x < 256 := by
      intro x hx1
      rcases List.mem_or_eq_of_mem_set hx1 with h | h
      · exact hb x h
      · rw [h]
        exact Nat.mod_lt _ (by norm_num)
    rw [xorInto, ih _ (j + 1) hb1 (fun x hx1 => hd x (List.mem_cons_of_mem _ hx1))
      (by rw [List.length_set]; omega), getD_set, Nat.mod_eq_of_lt hx, List.length_cons]
    by_cases hij : j = i
    · subst hij
      have c1 : ¬ (j + 1 ≤ j ∧ j < j + 1 + ds.length) := by omega
      have c2 : j ≤ j ∧ j < j + (ds.length + 1) := by omega
      have c3 : j = j ∧ j < b.length := by omega
      rw [if_neg c1, if_pos c2, if_pos c3, Nat.sub_self, List.getD_cons_zero]
    · have c3 : ¬ (j = i ∧ i < b.length) := fun h => hij h.1
      rw [if_neg c3]
      by_cases hin : j + 1 ≤ i ∧ i < j + 1 + ds.length
      · have c2 : j ≤ i ∧ i < j + (ds.length + 1) := by omega
        have e : i - j = (i - (j + 1)) + 1 := by omega
        rw [if_pos hin, if_pos c2, e, List.getD_cons_succ]
      · have c2 : ¬ (j ≤ i ∧ i < j + (ds.length + 1)) := by omega
        rw [if_neg hin, if_neg c2]

/-- C20. `sha3_update` on a context with `0 ≤ pt < rsiz ≤ 200` and an input
of length `len`: `rsiz` and `mdlen` are unchanged, the cursor becomes
`(pt + len) mod rsiz`, which is below `rsiz`, the permutation is applied
`(pt + len) div rsiz` times, and every state index written is below `rsiz`;
when `pt + len < rsiz` the permutation is not applied and the new state is the
old one with bytes `pt .. pt+len-1` XORed with the input bytes. -/
theorem sha3_update_postcondition (S data : List Nat) (pt r : Nat) (md : Int)
    (hS : S.length = 200) (hb : ∀ x ∈ S, x < 256) (hd : ∀ x ∈ data, x < 256)
    (hpt : pt < r) (hr : r ≤ 200) :
    (sha3_update ⟨S, (pt : Int), (r : Int), md⟩ data).2.rsiz = (r : Int)
    ∧ (sha3_update ⟨S, (pt : Int), (r : Int), md⟩ data).2.mdlen = md
    ∧ (sha3_update ⟨S, (pt : Int), (r : Int), md⟩ data).2.pt
        = (((pt + data.length) % r : Nat) : Int)
    ∧ (pt + data.length) % r < r
    ∧ (sha3_update_loop_trace r data S pt).1 = sha3_update_loop r data S pt
    ∧ (sha3_update_loop_trace r data S pt).2.1 = (pt + data.length) / r
    ∧ (∀ idx ∈ (sha3_update_loop_trace r data S pt).2.2, 0 ≤ idx ∧ idx < (r : Int))
    ∧ (pt + data.length < r →
        (sha3_update_loop_trace r data S pt).2.1 = 0
        ∧ (sha3_update ⟨S, (pt : Int), (r : Int), md⟩ data).2.b.length = 200
        ∧ ∀ i, (sha3_update ⟨S, (pt : Int), (r : Int), md⟩ data).2.b.getD i 0
            = if pt ≤ i ∧ i < pt + data.length then S.getD i 0 ^^^ data.getD (i - pt) 0
              else S.getD i 0) := by
  obtain ⟨h1, h2, h3⟩ := sha3_update_loop_trace_counts r data S pt hpt
  have hfst := sha3_update_loop_trace_fst r data S pt
  refine ⟨rfl, rfl, ?_, Nat.mod_lt _ (by omega), hfst, h2, h3, ?_⟩
  · rw [← h1, hfst]
    rfl
  · intro hlt
    have hp := sha3_update_loop_partial r data S pt hlt
    refine ⟨by rw [h2, Nat.div_eq_of_lt hlt], ?_, ?_⟩
    · show (sha3_update_loop r data S pt).1.length = 200
      rw [hp, length_xorInto, hS]
    · intro i
      show (sha3_update_loop r data S pt).1.getD i 0 = _
      rw [hp]
      exact xorInto_getD data S pt hb hd (by omega) i

theorem sha3_update_postcondition_witness :
    (sha3_update ⟨List.replicate 200 0, ((135 : Nat) : Int), ((136 : Nat) : Int), 32⟩
        [1, 2, 3]).2.rsiz = ((136 : Nat) : Int)
    ∧ (sha3_update ⟨List.replicate 200 0, ((135 : Nat) : Int), ((136 : Nat) : Int), 32⟩
        [1, 2, 3]).2.mdlen = 32
    ∧ (sha3_update ⟨List.replicate 200 0, ((135 : Nat) : Int), ((136 : Nat) : Int), 32⟩
        [1, 2, 3]).2.pt = (((135 + [1, 2, 3].length) % 136 : Nat) : Int)
    ∧ (135 + [1, 2, 3].length) % 136 < 136
    ∧ (sha3_update_loop_trace (136 : Nat) [1, 2, 3] (List.replicate 200 0) (135 : Nat)).1
        = sha3_update_loop (136 : Nat) [1, 2, 3] (List.replicate 200 0) (135 : Nat)
    ∧ (sha3_update_loop_trace (136 : Nat) [1, 2, 3] (List.replicate 200 0) (135 : Nat)).2.1
        = (135 + [1, 2, 3].length) / 136
    ∧ (∀ idx ∈ (sha3_update_loop_trace (136 : Nat) [1, 2, 3] (List.replicate 200 0)
          (135 : Nat)).2.2, 0 ≤ idx ∧ idx < ((136 : Nat) : Int))
    ∧ (135 + [1, 2, 3].length < 136 →
        (sha3_update_loop_trace (136 : Nat) [1, 2, 3] (List.replicate 200 0) (135 : Nat)).2.1 = 0
        ∧ (sha3_update ⟨List.replicate 200 0, ((135 : Nat) : Int), ((136 : Nat) : Int), 32⟩
            [1, 2, 3]).2.b.length = 200
        ∧ ∀ i, (sha3_update ⟨List.replicate 200 0, ((135 : Nat) : Int), ((136 : Nat) : Int), 32⟩
              [1, 2, 3]).2.b.getD i 0
            = if 135 ≤ i ∧ i < 135 + [1, 2, 3].length
              then (List.replicate 200 0).getD i 0 ^^^ [1, 2, 3].getD (i - 135) 0
              else (List.replicate 200 0).getD i 0) :=
  sha3_update_postcondition (List.replicate 200 0) [1, 2, 3] 135 136 32 (List.length_replicate 200 0)
    (by intro x hx; rw [List.eq_of_mem_replicate hx]; norm_num)
    (by decide) (by norm_num) (by norm_num)

/-! ## The cursor across operations -/

theorem sha3_update_loop_cursor (rsiz : Int) (hr : 0 < rsiz) (ds b : List Nat) (j : Int)
    (h0 : 0 ≤ j) (h1 : j ≤ rsiz) :
    0 ≤ (sha3_update_loop rsiz ds b j).2 ∧ (sha3_update_loop rsiz ds b j).2 ≤ rsiz
    ∧ (j < rsiz → (sha3_update_loop rsiz ds b j).2 < rsiz) := by
  induction ds generalizing b j with
  | nil => exact ⟨h0, h1, fun h => h⟩
  | cons d ds ih =>
    rw [sha3_update_loop]
    by_cases h : j + 1 ≥ rsiz
    · simp only [if_pos h]
      obtain ⟨i1, i2, i3⟩ := ih (keccakf_bytes (xorByte b j d)) 0 (le_refl _) (le_of_lt hr)
      exact ⟨i1, i2, fun _ => i3 hr⟩
    · simp only [if_neg h]
      obtain ⟨i1, i2, i3⟩ := ih (xorByte b j d) (j + 1) (by omega) (by omega)
      exact ⟨i1, i2, fun _ => i3 (by omega)⟩

theorem shake_out_loop_cursor (rsiz : Int) (hr : 0 < rsiz) (n : Nat) (b : List Nat) (j : Int)
    (h0 : 0 ≤ j) (h1 : j ≤ rsiz) :
    0 ≤ (shake_out_loop rsiz n b j).2.2 ∧ (shake_out_loop rsiz n b j).2.2 ≤ rsiz := by
  induction n generalizing b j with
  | zero => exact ⟨h0, h1⟩
  | succ n ih =>
    rw [shake_out_loop]
    by_cases h : j ≥ rsiz
    · simp only [if_pos h]
      exact ih _ _ (by omega) (by omega)
    · simp only [if_neg h]
      exact ih _ _ (by omega) (by omega)

theorem sponge_step_cursor (c : sha3_ctx_t) (op : sponge_op) (hr : 0 < c.rsiz) (h0 : 0 ≤ c.pt)
    (h1 : c.pt ≤ c.rsiz) :
    (sponge_step c op).rsiz = c.rsiz ∧ (sponge_step c op).mdlen = c.mdlen
    ∧ 0 ≤ (sponge_step c op).pt ∧ (sponge_step c op).pt ≤ c.rsiz
    ∧ (op.is_out = false → c.pt < c.rsiz → (sponge_step c op).pt < c.rsiz) := by
  cases op with
  | update data =>
    obtain ⟨i1, i2, i3⟩ := sha3_update_loop_cursor c.rsiz hr data c.b c.pt h0 h1
    exact ⟨rfl, rfl, i1, i2, fun _ h => i3 h⟩
  | final => exact ⟨rfl, rfl, h0, h1, fun _ h => h⟩
  | xof => exact ⟨rfl, rfl, le_refl _, le_of_lt hr, fun _ _ => hr⟩
  | out len =>
    obtain ⟨i1, i2⟩ := shake_out_loop_cursor c.rsiz hr len c.b c.pt h0 h1
    exact ⟨rfl, rfl, i1, i2, fun h _ => Bool.noConfusion h⟩

theorem sponge_run_cursor (ops : List sponge_op) (c : sha3_ctx_t) (hr : 0 < c.rsiz)
    (h0 : 0 ≤ c.pt) (h1 : c.pt ≤ c.rsiz) :
    (sponge_run c ops).rsiz = c.rsiz ∧ (sponge_run c ops).mdlen = c.mdlen
    ∧ 0 ≤ (sponge_run c ops).pt ∧ (sponge_run c ops).pt ≤ c.rsiz
    ∧ ((∀ op ∈ ops, op.is_out = false) → c.pt < c.rsiz → (sponge_run c ops).pt < c.rsiz) := by
  induction ops generalizing c with
  | nil => exact ⟨rfl, rfl, h0, h1, fun _ h => h⟩
  | cons op ops ih =>
    obtain ⟨s1, s2, s3, s4, s5⟩ := sponge_step_cursor c op hr h0 h1
    obtain ⟨i1, i2, i3, i4, i5⟩ := ih (sponge_step c op) (by rw [s1]; exact hr) s3
      (by rw [s1]; exact s4)
    rw [s1] at i1 i4 i5
    rw [s2] at i2
    refine ⟨i1, i2, i3, i4, fun hops hlt => ?_⟩
    exact i5 (fun o ho => hops o (List.mem_cons_of_mem _ ho))
      (s5 (hops op (List.mem_cons_self _ _)) hlt)

/-- C11. Cursor invariant, as the code has it: for every context reached
from `sha3_init(mdlen)` with `1 ≤ mdlen ≤ 99` by a finite sequence of
`sha3_update`, `sha3_final`, `shake_xof` and `shake_out` calls, `rsiz` is still
`200 - 2 * mdlen`, `mdlen` is unchanged and `0 ≤ pt ≤ rsiz`; when the sequence
holds no `shake_out`, `0 ≤ pt < rsiz`.  The sequence is any, so the same holds
after each of its operations. -/
theorem cursor_invariant (c0 : sha3_ctx_t) (mdlen : Int) (hlo : 1 ≤ mdlen) (hhi : mdlen ≤ 99)
    (ops : List sponge_op) :
    (sponge_run (sha3_init c0 mdlen).2 ops).rsiz = 200 - 2 * mdlen
    ∧ (sponge_run (sha3_init c0 mdlen).2 ops).mdlen = mdlen
    ∧ 0 ≤ (sponge_run (sha3_init c0 mdlen).2 ops).pt
    ∧ (sponge_run (sha3_init c0 mdlen).2 ops).pt ≤ (sponge_run (sha3_init c0 mdlen).2 ops).rsiz
    ∧ ((∀ op ∈ ops, op.is_out = false) →
        (sponge_run (sha3_init c0 mdlen).2 ops).pt
          < (sponge_run (sha3_init c0 mdlen).2 ops).rsiz) := by
  have hrs : (sha3_init c0 mdlen).2.rsiz = 200 - 2 * mdlen :=
    sha3_init_rsiz c0 mdlen (by unfold is_int; omega) (by unfold is_int; omega)
  have hr : 0 < (sha3_init c0 mdlen).2.rsiz := by
    rw [hrs]
    omega
  obtain ⟨i1, i2, i3, i4, i5⟩ := sponge_run_cursor ops (sha3_init c0 mdlen).2 hr (le_refl _)
    (le_of_lt hr)
  refine ⟨i1.trans hrs, i2, i3, ?_, fun hops => ?_⟩
  · rw [i1]
    exact i4
  · rw [i1]
    exact i5 hops hr

theorem cursor_invariant_witness :
    (sponge_run (sha3_init ⟨[], 0, 0, 0⟩ 16).2
        [sponge_op.update [1, 2, 3], sponge_op.xof, sponge_op.out 4]).rsiz = 200 - 2 * 16
    ∧ (sponge_run (sha3_init ⟨[], 0, 0, 0⟩ 16).2
        [sponge_op.update [1, 2, 3], sponge_op.xof, sponge_op.out 4]).mdlen = 16
    ∧ 0 ≤ (sponge_run (sha3_init ⟨[], 0, 0, 0⟩ 16).2
        [sponge_op.update [1, 2, 3], sponge_op.xof, sponge_op.out 4]).pt
    ∧ (sponge_run (sha3_init ⟨[], 0, 0, 0⟩ 16).2
        [sponge_op.update [1, 2, 3], sponge_op.xof, sponge_op.out 4]).pt
        ≤ (sponge_run (sha3_init ⟨[], 0, 0, 0⟩ 16).2
            [sponge_op.update [1, 2, 3], sponge_op.xof, sponge_op.out 4]).rsiz
    ∧ ((∀ op ∈ [sponge_op.update [1, 2, 3], sponge_op.xof, sponge_op.out 4],
          op.is_out = false) →
        (sponge_run (sha3_init ⟨[], 0, 0, 0⟩ 16).2
            [sponge_op.update [1, 2, 3], sponge_op.xof, sponge_op.out 4]).pt
          < (sponge_run (sha3_init ⟨[], 0, 0, 0⟩ 16).2
              [sponge_op.update [1, 2, 3], sponge_op.xof, sponge_op.out 4]).rsiz) :=
  cursor_invariant ⟨[], 0, 0, 0⟩ 16 (by decide) (by decide)
    [sponge_op.update [1, 2, 3], sponge_op.xof, sponge_op.out 4]

/-- C11, as stated, fails: after `sha3_init` with `mdlen = 16` (rate 168),
`shake_xof` and a `shake_out` of 168 bytes, the cursor is 168, equal to `rsiz`:
`shake_out` tests `j >= rsiz` before it reads a byte, not after, so a call that
ends on the last byte of the rate leaves `pt = rsiz`. -/
theorem shake_out_leaves_cursor_at_rate :
    (sponge_run (sha3_init ⟨[], 0, 0, 0⟩ 16).2 [sponge_op.xof, sponge_op.out 168]).rsiz = 168
    ∧ (sponge_run (sha3_init ⟨[], 0, 0, 0⟩ 16).2 [sponge_op.xof, sponge_op.out 168]).pt = 168
    ∧ ¬ ((sponge_run (sha3_init ⟨[], 0, 0, 0⟩ 16).2 [sponge_op.xof, sponge_op.out 168]).pt
          < (sponge_run (sha3_init ⟨[], 0, 0, 0⟩ 16).2 [sponge_op.xof, sponge_op.out 168]).rsiz) := by
  have hp : (sponge_run (sha3_init ⟨[], 0, 0, 0⟩ 16).2 [sponge_op.xof, sponge_op.out 168]).pt
      = 168 := by
    decide!
  refine ⟨rfl, hp, ?_⟩
  rw [hp]
  exact fun h => absurd h (by decide)

/-! ## Rho Pi as a lane permutation -/

theorem testBit_of_lt_two_pow_64 (x i : Nat) (hx : x < 2 ^ 64) (hi : 64 ≤ i) :
    x.testBit i = false :=
  Nat.testBit_lt_two_pow (lt_of_lt_of_le hx (Nat.pow_le_pow_right (by norm_num) hi))

theorem ROTL64_testBit (x n i : Nat) (hx : x < 2 ^ 64) (hn : n ≤ 64) :
    (ROTL64 x n).testBit i = (decide (i < 64) && x.testBit ((i + 64 - n) % 64)) := by
  unfold ROTL64
  rw [Nat.testBit_or, Nat.testBit_mod_two_pow, Nat.testBit_shiftLeft, Nat.testBit_shiftRight]
  by_cases hi : i < 64
  · by_cases hin : n ≤ i
    · have e1 : (i + 64 - n) % 64 = i - n := by omega
      rw [e1, testBit_of_lt_two_pow_64 x (64 - n + i) hx (by omega)]
      simp [hi, hin]
    · have e1 : (i + 64 - n) % 64 = 64 - n + i := by omega
      rw [e1]
      simp [hi, hin]
  · rw [testBit_of_lt_two_pow_64 x (64 - n + i) hx (by omega)]
    simp [hi]

/-- A rotation by `n` followed by a rotation by `64 - n` is the identity on 64-bit words. -/
theorem ROTL64_cancel (x n m : Nat) (hx : x < 2 ^ 64) (hnm : n + m = 64) :
    ROTL64 (ROTL64 x n) m = x := by
  apply Nat.eq_of_testBit_eq
  intro i
  rw [ROTL64_testBit _ m i (ROTL64_lt x n hx) (by omega), ROTL64_testBit x n _ hx (by omega)]
  by_cases hi : i < 64
  · have e1 : ((i + 64 - m) % 64 + 64 - n) % 64 = i := by omega
    have e2 : (i + 64 - m) % 64 < 64 := Nat.mod_lt _ (by norm_num)
    rw [e1]
    simp [hi, e2]
  · rw [testBit_of_lt_two_pow_64 x i hx (by omega)]
    simp [hi]

theorem exists_lanes_of_length (s : List Nat) (hs : s.length = 25) :
    ∃ a0 a1 a2 a3 a4 a5 a6 a7 a8 a9 a10 a11 a12 a13 a14 a15 a16 a17 a18 a19 a20 a21 a22 a23 a24 : Nat,
      s = [a0, a1, a2, a3, a4, a5, a6, a7, a8, a9, a10, a11, a12, a13, a14, a15, a16, a17, a18, a19, a20, a21, a22, a23, a24] := by
  rcases s with _ | ⟨a0, s⟩
  · simp at hs
  rcases s with _ | ⟨a1, s⟩
  · simp at hs
  rcases s with _ | ⟨a2, s⟩
  · simp at hs
  rcases s with _ | ⟨a3, s⟩
  · simp at hs
  rcases s with _ | ⟨a4, s⟩
  · simp at hs
  rcases s with _ | ⟨a5, s⟩
  · simp at hs
  rcases s with _ | ⟨a6, s⟩
  · simp at hs
  rcases s with _ | ⟨a7, s⟩
  · simp at hs
  rcases s with _ | ⟨a8, s⟩
  · simp at hs
  rcases s with _ | ⟨a9, s⟩
  · simp at hs
  rcases s with _ | ⟨a10, s⟩
  · simp at hs
  rcases s with _ | ⟨a11, s⟩
  · simp at hs
  rcases s with _ | ⟨a12, s⟩
  · simp at hs
  rcases s with _ | ⟨a13, s⟩
  · simp at hs
  rcases s with _ | ⟨a14, s⟩
  · simp at hs
  rcases s with _ | ⟨a15, s⟩
  · simp at hs
  rcases s with _ | ⟨a16, s⟩
  · simp at hs
  rcases s with _ | ⟨a17, s⟩
  · simp at hs
  rcases s with _ | ⟨a18, s⟩
  · simp at hs
  rcases s with _ | ⟨a19, s⟩
  · simp at hs
  rcases s with _ | ⟨a20, s⟩
  · simp at hs
  rcases s with _ | ⟨a21, s⟩
  · simp at hs
  rcases s with _ | ⟨a22, s⟩
  · simp at hs
  rcases s with _ | ⟨a23, s⟩
  · simp at hs
  rcases s with _ | ⟨a24, s⟩
  · simp at hs
  rcases s with _ | ⟨x, s⟩
  · exact ⟨a0, a1, a2, a3, a4, a5, a6, a7, a8, a9, a10, a11, a12, a13, a14, a15, a16, a17, a18, a19, a20, a21, a22, a23, a24, rfl⟩
  · simp only [List.length_cons] at hs
    omega

theorem is_state_lanes (a0 a1 a2 a3 a4 a5 a6 a7 a8 a9 a10 a11 a12 a13 a14 a15 a16 a17 a18 a19 a20 a21 a22 a23 a24 : Nat) :
    is_state [a0, a1, a2, a3, a4, a5, a6, a7, a8, a9, a10, a11, a12, a13, a14, a15, a16, a17, a18, a19, a20, a21, a22, a23, a24]
      ↔ a0 < 2 ^ 64 ∧ a1 < 2 ^ 64 ∧ a2 < 2 ^ 64 ∧ a3 < 2 ^ 64 ∧ a4 < 2 ^ 64 ∧ a5 < 2 ^ 64 ∧ a6 < 2 ^ 64 ∧ a7 < 2 ^ 64 ∧ a8 < 2 ^ 64 ∧ a9 < 2 ^ 64 ∧ a10 < 2 ^ 64 ∧ a11 < 2 ^ 64 ∧ a12 < 2 ^ 64 ∧ a13 < 2 ^ 64 ∧ a14 < 2 ^ 64 ∧ a15 < 2 ^ 64 ∧ a16 < 2 ^ 64 ∧ a17 < 2 ^ 64 ∧ a18 < 2 ^ 64 ∧ a19 < 2 ^ 64 ∧ a20 < 2 ^ 64 ∧ a21 < 2 ^ 64 ∧ a22 < 2 ^ 64 ∧ a23 < 2 ^ 64 ∧ a24 < 2 ^ 64 := by
  simp only [is_state, List.length_cons, List.length_nil, List.forall_mem_cons, List.not_mem_nil,
    false_imp_iff, implies_true, and_true, Nat.reduceAdd, true_and]

theorem rho_pi_is_state (s : List Nat) (hs : is_state s) : is_state (rho_pi s) := by
  obtain ⟨a0, a1, a2, a3, a4, a5, a6, a7, a8, a9, a10, a11, a12, a13, a14, a15, a16, a17, a18, a19, a20, a21, a22, a23, a24, rfl⟩ := exists_lanes_of_length s hs.1
  obtain ⟨h0, h1, h2, h3, h4, h5, h6, h7, h8, h9, h10, h11, h12, h13, h14, h15, h16, h17, h18, h19, h20, h21, h22, h23, h24⟩ := (is_state_lanes a0 a1 a2 a3 a4 a5 a6 a7 a8 a9 a10 a11 a12 a13 a14 a15 a16 a17 a18 a19 a20 a21 a22 a23 a24).1 hs
  rw [rho_pi_eq_lanes, rho_pi_lanes, is_state_lanes]
  exact ⟨h0,
    ROTL64_lt _ _ h6,
    ROTL64_lt _ _ h12,
    ROTL64_lt _ _ h18,
    ROTL64_lt _ _ h24,
    ROTL64_lt _ _ h3,
    ROTL64_lt _ _ h9,
    ROTL64_lt _ _ h10,
    ROTL64_lt _ _ h16,
    ROTL64_lt _ _ h22,
    ROTL64_lt _ _ h1,
    ROTL64_lt _ _ h7,
    ROTL64_lt _ _ h13,
    ROTL64_lt _ _ h19,
    ROTL64_lt _ _ h20,
    ROTL64_lt _ _ h4,
    ROTL64_lt _ _ h5,
    ROTL64_lt _ _ h11,
    ROTL64_lt _ _ h17,
    ROTL64_lt _ _ h23,
    ROTL64_lt _ _ h2,
    ROTL64_lt _ _ h8,
    ROTL64_lt _ _ h14,
    ROTL64_lt _ _ h15,
    ROTL64_lt _ _ h21⟩

theorem rho_pi_inverse_is_state (s : List Nat) (hs : is_state s) : is_state (rho_pi_inverse s) := by
  obtain ⟨a0, a1, a2, a3, a4, a5, a6, a7, a8, a9, a10, a11, a12, a13, a14, a15, a16, a17, a18, a19, a20, a21, a22, a23, a24, rfl⟩ := exists_lanes_of_length s hs.1
  obtain ⟨h0, h1, h2, h3, h4, h5, h6, h7, h8, h9, h10, h11, h12, h13, h14, h15, h16, h17, h18, h19, h20, h21, h22, h23, h24⟩ := (is_state_lanes a0 a1 a2 a3 a4 a5 a6 a7 a8 a9 a10 a11 a12 a13 a14 a15 a16 a17 a18 a19 a20 a21 a22 a23 a24).1 hs
  rw [rho_pi_inverse, is_state_lanes]
  exact ⟨h0,
    ROTL64_lt _ _ h10,
    ROTL64_lt _ _ h20,
    ROTL64_lt _ _ h5,
    ROTL64_lt _ _ h15,
    ROTL64_lt _ _ h16,
    ROTL64_lt _ _ h1,
    ROTL64_lt _ _ h11,
    ROTL64_lt _ _ h21,
    ROTL64_lt _ _ h6,
    ROTL64_lt _ _ h7,
    ROTL64_lt _ _ h17,
    ROTL64_lt _ _ h2,
    ROTL64_lt _ _ h12,
    ROTL64_lt _ _ h22,
    ROTL64_lt _ _ h23,
    ROTL64_lt _ _ h8,
    ROTL64_lt _ _ h18,
    ROTL64_lt _ _ h3,
    ROTL64_lt _ _ h13,
    ROTL64_lt _ _ h14,
    ROTL64_lt _ _ h24,
    ROTL64_lt _ _ h9,
    ROTL64_lt _ _ h19,
    ROTL64_lt _ _ h4⟩

theorem rho_pi_inverse_left (s : List Nat) (hs : is_state s) : rho_pi_inverse (rho_pi s) = s := by
  obtain ⟨a0, a1, a2, a3, a4, a5, a6, a7, a8, a9, a10, a11, a12, a13, a14, a15, a16, a17, a18, a19, a20, a21, a22, a23, a24, rfl⟩ := exists_lanes_of_length s hs.1
  obtain ⟨h0, h1, h2, h3, h4, h5, h6, h7, h8, h9, h10, h11, h12, h13, h14, h15, h16, h17, h18, h19, h20, h21, h22, h23, h24⟩ := (is_state_lanes a0 a1 a2 a3 a4 a5 a6 a7 a8 a9 a10 a11 a12 a13 a14 a15 a16 a17 a18 a19 a20 a21 a22 a23 a24).1 hs
  rw [rho_pi_eq_lanes, rho_pi_lanes, rho_pi_inverse,
    ROTL64_cancel a1 1 63 h1 rfl,
    ROTL64_cancel a10 3 61 h10 rfl,
    ROTL64_cancel a7 6 58 h7 rfl,
    ROTL64_cancel a11 10 54 h11 rfl,
    ROTL64_cancel a17 15 49 h17 rfl,
    ROTL64_cancel a18 21 43 h18 rfl,
    ROTL64_cancel a3 28 36 h3 rfl,
    ROTL64_cancel a5 36 28 h5 rfl,
    ROTL64_cancel a16 45 19 h16 rfl,
    ROTL64_cancel a8 55 9 h8 rfl,
    ROTL64_cancel a21 2 62 h21 rfl,
    ROTL64_cancel a24 14 50 h24 rfl,
    ROTL64_cancel a4 27 37 h4 rfl,
    ROTL64_cancel a15 41 23 h15 rfl,
    ROTL64_cancel a23 56 8 h23 rfl,
    ROTL64_cancel a19 8 56 h19 rfl,
    ROTL64_cancel a13 25 39 h13 rfl,
    ROTL64_cancel a12 43 21 h12 rfl,
    ROTL64_cancel a2 62 2 h2 rfl,
    ROTL64_cancel a20 18 46 h20 rfl,
    ROTL64_cancel a14 39 25 h14 rfl,
    ROTL64_cancel a22 61 3 h22 rfl,
    ROTL64_cancel a9 20 44 h9 rfl,
    ROTL64_cancel a6 44 20 h6 rfl]

theorem rho_pi_inverse_right (s : List Nat) (hs : is_state s) : rho_pi (rho_pi_inverse s) = s := by
  obtain ⟨a0, a1, a2, a3, a4, a5, a6, a7, a8, a9, a10, a11, a12, a13, a14, a15, a16, a17, a18, a19, a20, a21, a22, a23, a24, rfl⟩ := exists_lanes_of_length s hs.1
  obtain ⟨h0, h1, h2, h3, h4, h5, h6, h7, h8, h9, h10, h11, h12, h13, h14, h15, h16, h17, h18, h19, h20, h21, h22, h23, h24⟩ := (is_state_lanes a0 a1 a2 a3 a4 a5 a6 a7 a8 a9 a10 a11 a12 a13 a14 a15 a16 a17 a18 a19 a20 a21 a22 a23 a24).1 hs
  rw [rho_pi_eq_lanes, rho_pi_inverse, rho_pi_lanes,
    ROTL64_cancel a10 63 1 h10 rfl,
    ROTL64_cancel a7 61 3 h7 rfl,
    ROTL64_cancel a11 58 6 h11 rfl,
    ROTL64_cancel a17 54 10 h17 rfl,
    ROTL64_cancel a18 49 15 h18 rfl,
    ROTL64_cancel a3 43 21 h3 rfl,
    ROTL64_cancel a5 36 28 h5 rfl,
    ROTL64_cancel a16 28 36 h16 rfl,
    ROTL64_cancel a8 19 45 h8 rfl,
    ROTL64_cancel a21 9 55 h21 rfl,
    ROTL64_cancel a24 62 2 h24 rfl,
    ROTL64_cancel a4 50 14 h4 rfl,
    ROTL64_cancel a15 37 27 h15 rfl,
    ROTL64_cancel a23 23 41 h23 rfl,
    ROTL64_cancel a19 8 56 h19 rfl,
    ROTL64_cancel a13 56 8 h13 rfl,
    ROTL64_cancel a12 39 25 h12 rfl,
    ROTL64_cancel a2 21 43 h2 rfl,
    ROTL64_cancel a20 2 62 h20 rfl,
    ROTL64_cancel a14 46 18 h14 rfl,
    ROTL64_cancel a22 25 39 h22 rfl,
    ROTL64_cancel a9 3 61 h9 rfl,
    ROTL64_cancel a6 44 20 h6 rfl,
    ROTL64_cancel a1 20 44 h1 rfl]

theorem rho_pi_lane (s : List Nat) (hs : s.length = 25) (i : Nat) (hi : i < 24) :
    (rho_pi s).getD (keccakf_piln.getD i 0) 0
      = ROTL64 (s.getD (rho_pi_src i) 0) (keccakf_rotc.getD i 0) := by
  obtain ⟨a0, a1, a2, a3, a4, a5, a6, a7, a8, a9, a10, a11, a12, a13, a14, a15, a16, a17, a18, a19, a20, a21, a22, a23, a24, rfl⟩ := exists_lanes_of_length s hs
  rw [rho_pi_eq_lanes, rho_pi_lanes]
  interval_cases i <;> rfl

theorem rho_pi_lane_zero (s : List Nat) (hs : s.length = 25) :
    (rho_pi s).getD 0 0 = s.getD 0 0 := by
  obtain ⟨a0, a1, a2, a3, a4, a5, a6, a7, a8, a9, a10, a11, a12, a13, a14, a15, a16, a17, a18, a19, a20, a21, a22, a23, a24, rfl⟩ := exists_lanes_of_length s hs
  rw [rho_pi_eq_lanes, rho_pi_lanes]
  rfl

/-- C19. The Rho Pi loop of one round, on a state `s` of 25 words: word 0 is
kept, and for every `i` in `0..23` the new word at `keccakf_piln[i]` is
`ROTL64(s[src(i)], keccakf_rotc[i])` with `src(0) = 1` and
`src(i) = keccakf_piln[i-1]`; `keccakf_piln` has 24 entries and holds each index
`1..24` exactly once; the step maps states (25 words below `2^64`) to states,
one to one and onto. -/
theorem rho_pi_lanewise_bijection (s : List Nat) (hs : s.length = 25) :
    s.length = 25
    ∧ (rho_pi s).length = 25
    ∧ (rho_pi s).getD 0 0 = s.getD 0 0
    ∧ (∀ i < 24, (rho_pi s).getD (keccakf_piln.getD i 0) 0
        = ROTL64 (s.getD (rho_pi_src i) 0) (keccakf_rotc.getD i 0))
    ∧ keccakf_piln.length = 24
    ∧ (∀ j, 1 ≤ j → j ≤ 24 → keccakf_piln.count j = 1)
    ∧ (∀ t, is_state t → is_state (rho_pi t))
    ∧ (∀ t u, is_state t → is_state u → rho_pi t = rho_pi u → t = u)
    ∧ (∀ u, is_state u → ∃ t, is_state t ∧ rho_pi t = u) := by
  refine ⟨hs, ?_, rho_pi_lane_zero s hs, rho_pi_lane s hs, rfl, ?_, rho_pi_is_state, ?_, ?_⟩
  · obtain ⟨a0, a1, a2, a3, a4, a5, a6, a7, a8, a9, a10, a11, a12, a13, a14, a15, a16, a17, a18, a19, a20, a21, a22, a23, a24, rfl⟩ := exists_lanes_of_length s hs
    rw [rho_pi_eq_lanes, rho_pi_lanes]
    rfl
  · intro j h1 h24
    interval_cases j <;> rfl
  · intro t u ht hu h
    rw [← rho_pi_inverse_left t ht, h, rho_pi_inverse_left u hu]
  · intro u hu
    exact ⟨rho_pi_inverse u, rho_pi_inverse_is_state u hu, rho_pi_inverse_right u hu⟩

theorem rho_pi_lanewise_bijection_witness :
    (List.range 25).length = 25
    ∧ (rho_pi (List.range 25)).length = 25
    ∧ (rho_pi (List.range 25)).getD 0 0 = (List.range 25).getD 0 0
    ∧ (∀ i < 24, (rho_pi (List.range 25)).getD (keccakf_piln.getD i 0) 0
        = ROTL64 ((List.range 25).getD (rho_pi_src i) 0) (keccakf_rotc.getD i 0))
    ∧ keccakf_piln.length = 24
    ∧ (∀ j, 1 ≤ j → j ≤ 24 → keccakf_piln.count j = 1)
    ∧ (∀ t, is_state t → is_state (rho_pi t))
    ∧ (∀ t u, is_state t → is_state u → rho_pi t = rho_pi u → t = u)
    ∧ (∀ u, is_state u → ∃ t, is_state t ∧ rho_pi t = u) :=
  rho_pi_lanewise_bijection (List.range 25) (List.length_range 25)

/-! ## Rotations and array accesses of the permutation -/

theorem foldl_fst_eq {σ τ ι : Type} (F : σ × τ → ι → σ × τ) (f : σ → ι → σ)
    (h : ∀ p i, (F p i).1 = f p.1 i) (l : List ι) (p : σ × τ) :
    (l.foldl F p).1 = l.foldl f p.1 := by
  induction l generalizing p with
  | nil => rfl
  | cons x l ih => rw [List.foldl_cons, List.foldl_cons, ih, h]

theorem foldl_snd_eq {σ τ ι : Type} (F : σ × List τ → ι → σ × List τ) (g : ι → List τ)
    (h : ∀ p i, (F p i).2 = p.2 ++ g i) (l : List ι) (p : σ × List τ) :
    (l.foldl F p).2 = p.2 ++ l.flatMap g := by
  induction l generalizing p with
  | nil => simp
  | cons x l ih => rw [List.foldl_cons, ih, h, List.flatMap_cons, List.append_assoc]

theorem theta_step_fst (bc : List Nat) (p : List Nat × List access) (i : Nat) :
    (theta_step bc p i).1
      = [0, 5, 10, 15, 20].foldl (fun st j => xorWord st (j + i)
          (bc.getD ((i + 4) % 5) 0 ^^^ ROTL64 (bc.getD ((i + 1) % 5) 0) 1)) p.1 := by
  unfold theta_step
  rw [foldl_fst_eq _ (fun st j => xorWord st (j + i)
    (bc.getD ((i + 4) % 5) 0 ^^^ ROTL64 (bc.getD ((i + 1) % 5) 0) 1)) (fun _ _ => rfl)]

theorem theta_step_snd (bc : List Nat) (p : List Nat × List access) (i : Nat) :
    (theta_step bc p i).2
      = p.2 ++ ([access.bc ((i + 4) % 5), access.bc ((i + 1) % 5), access.rot 1]
          ++ [0, 5, 10, 15, 20].flatMap (fun j => [access.st (j + i)])) := by
  unfold theta_step
  rw [foldl_snd_eq _ (fun j => [access.st (j + i)]) (fun _ _ => rfl), List.append_assoc]
  rfl

theorem theta_bc_trace_fst (st : List Nat) : (theta_bc_trace st).1 = theta_bc st := rfl

theorem theta_bc_trace_snd (st : List Nat) :
    (theta_bc_trace st).2
      = (List.range 5).flatMap (fun i =>
          [access.st i, access.st (i + 5), access.st (i + 10), access.st (i + 15),
            access.st (i + 20), access.bc i]) := rfl

theorem theta_trace_fst (st : List Nat) : (theta_trace st).1 = theta st := by
  unfold theta_trace theta
  simp only []
  rw [foldl_fst_eq (theta_step (theta_bc_trace st).1)
    (fun s i => [0, 5, 10, 15, 20].foldl (fun s1 j => xorWord s1 (j + i)
      ((theta_bc_trace st).1.getD ((i + 4) % 5) 0
        ^^^ ROTL64 ((theta_bc_trace st).1.getD ((i + 1) % 5) 0) 1)) s)
    (theta_step_fst (theta_bc_trace st).1), theta_bc_trace_fst]

theorem theta_trace_snd (st : List Nat) : (theta_trace st).2 = theta_accesses := by
  unfold theta_trace
  simp only []
  rw [foldl_snd_eq (theta_step (theta_bc_trace st).1)
    (fun i => [access.bc ((i + 4) % 5), access.bc ((i + 1) % 5), access.rot 1]
      ++ [0, 5, 10, 15, 20].flatMap (fun j => [access.st (j + i)]))
    (theta_step_snd (theta_bc_trace st).1), theta_bc_trace_snd]
  simp only [theta_accesses]

theorem rho_pi_trace_fst (st : List Nat) : (rho_pi_trace st).1 = rho_pi st := by
  unfold rho_pi_trace rho_pi
  simp only []
  rw [foldl_fst_eq rho_pi_step (fun (p : List Nat × Nat) i =>
    (p.1.set (keccakf_piln.getD i 0) (ROTL64 p.2 (keccakf_rotc.getD i 0)),
      p.1.getD (keccakf_piln.getD i 0) 0)) (fun _ _ => rfl)]
  simp only [rd_st]

theorem rho_pi_trace_snd (st : List Nat) : (rho_pi_trace st).2 = rho_pi_accesses := by
  unfold rho_pi_trace
  simp only []
  rw [foldl_snd_eq rho_pi_step (fun i =>
    [access.piln i, access.st (keccakf_piln.getD i 0), access.bc 0, access.rotc i,
      access.rot (keccakf_rotc.getD i 0), access.st (keccakf_piln.getD i 0), access.bc 0])
    (fun _ _ => rfl)]
  simp only [rd_st, rho_pi_accesses]

theorem chi_step_fst (p : List Nat × List access) (j : Nat) :
    (chi_step p j).1
      = (List.range 5).foldl (fun st i =>
          xorWord st (j + i)
            (not64 (((List.range 5).map (fun i => p.1.getD (j + i) 0)).getD ((i + 1) % 5) 0)
              &&& ((List.range 5).map (fun i => p.1.getD (j + i) 0)).getD ((i + 2) % 5) 0)) p.1 := by
  unfold chi_step
  rw [foldl_fst_eq _ (fun st i =>
    xorWord st (j + i)
      (not64 (((List.range 5).map (fun i => p.1.getD (j + i) 0)).getD ((i + 1) % 5) 0)
        &&& ((List.range 5).map (fun i => p.1.getD (j + i) 0)).getD ((i + 2) % 5) 0))
    (fun _ _ => rfl)]

theorem chi_step_snd (p : List Nat × List access) (j : Nat) :
    (chi_step p j).2
      = p.2 ++ ((List.range 5).flatMap (fun i => [access.st (j + i), access.bc i])
          ++ (List.range 5).flatMap (fun i =>
            [access.bc ((i + 1) % 5), access.bc ((i + 2) % 5), access.st (j + i)])) := by
  unfold chi_step
  rw [foldl_snd_eq _ (fun i =>
    [access.bc ((i + 1) % 5), access.bc ((i + 2) % 5), access.st (j + i)]) (fun _ _ => rfl),
    List.append_assoc]
  rfl

theorem chi_trace_fst (st : List Nat) : (chi_trace st).1 = chi st := by
  unfold chi_trace chi
  rw [foldl_fst_eq chi_step
    (fun st j => (List.range 5).foldl (fun st1 i =>
      xorWord st1 (j + i)
        (not64 (((List.range 5).map (fun i => st.getD (j + i) 0)).getD ((i + 1) % 5) 0)
          &&& ((List.range 5).map (fun i => st.getD (j + i) 0)).getD ((i + 2) % 5) 0)) st)
    chi_step_fst]

theorem chi_trace_snd (st : List Nat) : (chi_trace st).2 = chi_accesses := by
  unfold chi_trace
  rw [foldl_snd_eq chi_step
    (fun j => (List.range 5).flatMap (fun i => [access.st (j + i), access.bc i])
      ++ (List.range 5).flatMap (fun i =>
        [access.bc ((i + 1) % 5), access.bc ((i + 2) % 5), access.st (j + i)]))
    chi_step_snd, List.nil_append]
  simp only [chi_accesses]

theorem iota_trace_fst (st : List Nat) (r : Nat) : (iota_trace st r).1 = iota st r := rfl

theorem iota_trace_snd (st : List Nat) (r : Nat) :
    (iota_trace st r).2 = [access.rndc r, access.st 0] := rfl

theorem keccakf_round_trace_fst (p : List Nat × List access) (r : Nat) :
    (keccakf_round_trace p r).1 = keccakf_round p.1 r := by
  unfold keccakf_round_trace keccakf_round
  simp only []
  rw [iota_trace_fst, chi_trace_fst, rho_pi_trace_fst, theta_trace_fst]

theorem keccakf_round_trace_snd (p : List Nat × List access) (r : Nat) :
    (keccakf_round_trace p r).2 = p.2 ++ round_accesses r := by
  unfold keccakf_round_trace
  simp only []
  rw [theta_trace_snd, rho_pi_trace_snd, chi_trace_snd, iota_trace_snd]
  simp only [round_accesses]

theorem sha3_keccakf_trace_fst (st : List Nat) :
    (sha3_keccakf_trace st).1 = sha3_keccakf st := by
  unfold sha3_keccakf_trace sha3_keccakf
  simp only []
  rw [foldl_fst_eq keccakf_round_trace keccakf_round keccakf_round_trace_fst]

theorem sha3_keccakf_trace_snd (st : List Nat) :
    (sha3_keccakf_trace st).2 = (List.range KECCAKF_ROUNDS).flatMap round_accesses := by
  unfold sha3_keccakf_trace
  simp only []
  rw [foldl_snd_eq keccakf_round_trace round_accesses keccakf_round_trace_snd, List.nil_append]

theorem filterMap_flatMap_eq {α β γ : Type} (f : β → Option γ) (g : α → List β) (l : List α) :
    (l.flatMap g).filterMap f = l.flatMap (fun x => (g x).filterMap f) := by
  induction l with
  | nil => rfl
  | cons x l ih => rw [List.flatMap_cons, List.filterMap_append, ih, List.flatMap_cons]

theorem length_flatMap_const {α β : Type} (g : α → List β) (c : Nat)
    (h : ∀ x, (g x).length = c) (l : List α) : (l.flatMap g).length = l.length * c := by
  induction l with
  | nil => simp
  | cons x l ih =>
    rw [List.flatMap_cons, List.length_append, ih, h, List.length_cons, Nat.succ_mul,
      Nat.add_comm]

theorem round_accesses_ok (r : Nat) (hr : r < 24) : ∀ a ∈ round_accesses r, a.ok = true := by
  have h : (theta_accesses ++ rho_pi_accesses ++ chi_accesses).all access.ok = true := by
    decide!
  intro a ha
  unfold round_accesses at ha
  rcases List.mem_append.1 ha with h1 | h1
  · exact List.all_eq_true.1 h a h1
  · rcases List.mem_cons.1 h1 with h2 | h2
    · rw [h2]
      simp only [access.ok, decide_eq_true_eq]
      exact hr
    · rw [List.mem_singleton.1 h2]
      rfl

theorem round_accesses_rot (r : Nat) :
    (round_accesses r).filterMap access.rot_amount = List.replicate 5 1 ++ keccakf_rotc := by
  have h : (theta_accesses ++ rho_pi_accesses ++ chi_accesses).filterMap access.rot_amount
      = List.replicate 5 1 ++ keccakf_rotc := by
    decide
  unfold round_accesses
  rw [List.filterMap_append, h]
  rfl

theorem length_round_accesses (r : Nat) : (round_accesses r).length = 366 := by
  have h : (theta_accesses ++ rho_pi_accesses ++ chi_accesses).length = 364 := by
    decide!
  unfold round_accesses
  rw [List.length_append, h]
  rfl

theorem sha3_keccakf_trace_ok (st : List Nat) :
    ∀ a ∈ (sha3_keccakf_trace st).2, a.ok = true := by
  intro a ha
  rw [sha3_keccakf_trace_snd, List.mem_flatMap] at ha
  obtain ⟨r, hr, har⟩ := ha
  exact round_accesses_ok r (List.mem_range.1 hr) a har

/-- C18. Well-defined rotations and array accesses of `sha3_keccakf`.  The
permutation is run with every rotation `ROTL64(x, n)` and every access to
`st`, `bc` and the three tables recorded, and returns the same words.  Every
recorded rotation has `1 ≤ n ≤ 63`, so `x << n` and `x >> (64 - n)` shift by
neither 0 nor 64; the rotations of a round are five by 1 (Theta) and one by
each `keccakf_rotc[i]` (Rho Pi); every recorded index is inside its array:
below 25 for `st`, below 5 for `bc`, below the 24 entries of each table.  A
round records 366 rotations and accesses. -/
theorem rotations_and_indices_in_bounds (st : List Nat) :
    (sha3_keccakf_trace st).1 = sha3_keccakf st
    ∧ (theta_trace st).1 = theta st ∧ (rho_pi_trace st).1 = rho_pi st
    ∧ (chi_trace st).1 = chi st
    ∧ (∀ a ∈ (sha3_keccakf_trace st).2, a.ok = true)
    ∧ (∀ n, access.rot n ∈ (sha3_keccakf_trace st).2 →
        1 ≤ n ∧ n ≤ 63 ∧ 1 ≤ 64 - n ∧ 64 - n ≤ 63)
    ∧ (∀ k, access.st k ∈ (sha3_keccakf_trace st).2 → k < 25)
    ∧ (∀ k, access.bc k ∈ (sha3_keccakf_trace st).2 → k < 5)
    ∧ (∀ k, access.rotc k ∈ (sha3_keccakf_trace st).2 → k < keccakf_rotc.length)
    ∧ (∀ k, access.piln k ∈ (sha3_keccakf_trace st).2 → k < keccakf_piln.length)
    ∧ (∀ k, access.rndc k ∈ (sha3_keccakf_trace st).2 → k < keccakf_rndc.length)
    ∧ (sha3_keccakf_trace st).2.filterMap access.rot_amount
        = (List.range KECCAKF_ROUNDS).flatMap (fun _ => List.replicate 5 1 ++ keccakf_rotc)
    ∧ (sha3_keccakf_trace st).2.length = KECCAKF_ROUNDS * 366 := by
  have hok := sha3_keccakf_trace_ok st
  refine ⟨sha3_keccakf_trace_fst st, theta_trace_fst st, rho_pi_trace_fst st, chi_trace_fst st,
    hok, ?_, ?_, ?_, ?_, ?_, ?_, ?_, ?_⟩
  · intro n hn
    have h := hok _ hn
    simp only [access.ok, decide_eq_true_eq] at h
    omega
  · intro k hk
    have h := hok _ hk
    simp only [access.ok, decide_eq_true_eq] at h
    exact h
  · intro k hk
    have h := hok _ hk
    simp only [access.ok, decide_eq_true_eq] at h
    exact h
  · intro k hk
    have h := hok _ hk
    simp only [access.ok, decide_eq_true_eq] at h
    exact h
  · intro k hk
    have h := hok _ hk
    simp only [access.ok, decide_eq_true_eq] at h
    exact h
  · intro k hk
    have h := hok _ hk
    simp only [access.ok, decide_eq_true_eq] at h
    exact h
  · rw [sha3_keccakf_trace_snd, filterMap_flatMap_eq]
    simp only [round_accesses_rot]
  · rw [sha3_keccakf_trace_snd, length_flatMap_const round_accesses 366 length_round_accesses,
      List.length_range]

end Sha3
